import Mathlib

set_option allowUnsafeReducibility true
attribute [semireducible] Rat.add Rat.mul Rat.sub Rat.div Rat.neg Rat.inv

/-!
Verification of the solver core of the `tdm-course-project` repository:
an exact-arithmetic Big-M simplex method with a branch-and-bound driver.

The embedding below is a shallow model of the Rust sources:
* `ratio-extension/src/ratio_ext.rs` — the extended rational type
  `RatioExt<BigInt>` (finite rationals plus `Inf`, `MinusInf`, `Nan`);
  `Ratio<BigInt>` is modelled by Lean's exact `ℚ`.
* `src-tauri/src/simplex/big_number.rs` — the symbolic Big-M pair.
* `src-tauri/src/simplex/problem.rs` — `Constraint`, `ObjectiveFunction`,
  `Problem::normalize`, `Problem::add_constraint_on_var`, and the join
  logic of `Problem::improve`.
* `src-tauri/src/simplex/table.rs` — `SimplexTable::step` / `step_min`.

Rust panics (`unwrap` on `None`/empty, `unimplemented!`) are modelled by
`Option.none` at the function result. Sequential mutating loops are
translated to the equivalent maps/folds over lists; the correspondence is
noted at each definition.
-/

/-- The extended rational type, from `ratio_ext.rs` (`enum RatioExt<T>`),
instantiated at `T = BigInt` so that `Ratio<BigInt>` is `ℚ`.
Constructor order follows the source: `Inf`, `Finite`, `MinusInf`, `Nan`. -/
inductive RatioExt where
  | inf : RatioExt
  | finite : ℚ → RatioExt
  | minusInf : RatioExt
  | nan : RatioExt
deriving DecidableEq, Repr

/-- `Ratio::cmp` of the `num-rational` crate: the numeric linear order on
exact rationals. -/
def ratCmp (l r : ℚ) : Ordering :=
  if l < r then .lt else if l = r then .eq else .gt

namespace RatioExt

/-- `RatioExt::zero()` — `Finite(0)`. -/
def zero : RatioExt := .finite 0

/-- `RatioExt::one()` — `Finite(1)`. -/
def one : RatioExt := .finite 1

/-- `RatioExt::is_nan` (from `derive_more::IsVariant`). -/
def isNan : RatioExt → Bool
  | .nan => true
  | _ => false

/-- `PartialEq for RatioExt` (`ratio_ext.rs` lines 115-126): equal
infinities compare equal, finite values compare numerically, `Nan`
equals nothing (not even itself). -/
def beq : RatioExt → RatioExt → Bool
  | .inf, .inf => true
  | .minusInf, .minusInf => true
  | .finite l, .finite r => decide (l = r)
  | _, _ => false

/-- `PartialOrd::partial_cmp for RatioExt` (`ratio_ext.rs` lines 128-145).
`none` models Rust's `None` (unordered). -/
def pcmp : RatioExt → RatioExt → Option Ordering
  | .nan, _ => none
  | _, .nan => none
  | .inf, .inf => none
  | .minusInf, .minusInf => none
  | .minusInf, _ => some .lt
  | .finite _, .inf => some .lt
  | .inf, _ => some .gt
  | .finite _, .minusInf => some .gt
  | .finite l, .finite r => some (ratCmp l r)

/-- `RatioExt::total_cmp` (`ratio_ext.rs` lines 147-162), translated arm by
arm in source order (Lean `match` also picks the first matching arm). -/
def totalCmp : RatioExt → RatioExt → Ordering
  | .finite l, .finite r => ratCmp l r
  | .inf, .inf => .eq
  | .minusInf, .minusInf => .eq
  | .nan, .nan => .eq
  | .inf, _ => .gt
  | _, .nan => .gt
  | _, .inf => .lt
  | .minusInf, _ => .lt
  | .nan, _ => .lt
  | _, .minusInf => .gt

/-- `Add for &RatioExt` (`ratio_ext.rs` lines 237-269): the `is_nan` guard
first, then the nested match. -/
def add : RatioExt → RatioExt → RatioExt
  | .nan, _ => .nan
  | _, .nan => .nan
  | .inf, .inf => .inf
  | .inf, .finite _ => .inf
  | .inf, .minusInf => .nan
  | .finite _, .inf => .inf
  | .finite l, .finite r => .finite (l + r)
  | .finite _, .minusInf => .minusInf
  | .minusInf, .inf => .nan
  | .minusInf, .minusInf => .minusInf
  | .minusInf, .finite _ => .minusInf

/-- `AddAssign<&Self> for RatioExt` (`ratio_ext.rs` lines 280-312); the
body mirrors `Add` with `mem::take` on the finite payload. -/
def addAssignRef : RatioExt → RatioExt → RatioExt
  | .nan, _ => .nan
  | _, .nan => .nan
  | .inf, .inf => .inf
  | .inf, .finite _ => .inf
  | .inf, .minusInf => .nan
  | .finite _, .inf => .inf
  | .finite l, .finite r => .finite (l + r)
  | .finite _, .minusInf => .minusInf
  | .minusInf, .inf => .nan
  | .minusInf, .minusInf => .minusInf
  | .minusInf, .finite _ => .minusInf

/-- `Sub for &RatioExt` (`ratio_ext.rs` lines 325-357). -/
def sub : RatioExt → RatioExt → RatioExt
  | .nan, _ => .nan
  | _, .nan => .nan
  | .inf, .inf => .nan
  | .inf, .finite _ => .inf
  | .inf, .minusInf => .inf
  | .finite _, .inf => .minusInf
  | .finite l, .finite r => .finite (l - r)
  | .finite _, .minusInf => .inf
  | .minusInf, .inf => .minusInf
  | .minusInf, .minusInf => .nan
  | .minusInf, .finite _ => .minusInf

/-- `Mul for &RatioExt` (`ratio_ext.rs` lines 413-457). Note the source's
`Finite(_) * MinusInf` arm returns `MinusInf` with no sign split. -/
def mul : RatioExt → RatioExt → RatioExt
  | .nan, _ => .nan
  | _, .nan => .nan
  | .inf, .inf => .inf
  | .inf, .finite r => if r < 0 then .minusInf else if r = 0 then zero else .inf
  | .inf, .minusInf => .minusInf
  | .finite l, .inf => if l < 0 then .minusInf else if l = 0 then zero else .inf
  | .finite l, .finite r => .finite (l * r)
  | .finite _, .minusInf => .minusInf
  | .minusInf, .inf => .minusInf
  | .minusInf, .minusInf => .inf
  | .minusInf, .finite r => if r < 0 then .inf else if r = 0 then zero else .minusInf

/-- `MulAssign<&Self> for RatioExt` (`ratio_ext.rs` lines 468-512); the
arms mirror `Mul for &RatioExt` exactly. -/
def mulAssignRef : RatioExt → RatioExt → RatioExt
  | .nan, _ => .nan
  | _, .nan => .nan
  | .inf, .inf => .inf
  | .inf, .finite r => if r < 0 then .minusInf else if r = 0 then zero else .inf
  | .inf, .minusInf => .minusInf
  | .finite l, .inf => if l < 0 then .minusInf else if l = 0 then zero else .inf
  | .finite l, .finite r => .finite (l * r)
  | .finite _, .minusInf => .minusInf
  | .minusInf, .inf => .minusInf
  | .minusInf, .minusInf => .inf
  | .minusInf, .finite r => if r < 0 then .inf else if r = 0 then zero else .minusInf

/-- `Div for &RatioExt` (`ratio_ext.rs` lines 525-567). -/
def div : RatioExt → RatioExt → RatioExt
  | .nan, _ => .nan
  | _, .nan => .nan
  | .inf, .finite r => if r < 0 then .minusInf else .inf
  | .inf, .inf => .nan
  | .inf, .minusInf => .nan
  | .finite l, .finite r =>
      if r = 0 then (if l = 0 then .nan else if l < 0 then .minusInf else .inf)
      else .finite (l / r)
  | .finite _, .inf => zero
  | .finite _, .minusInf => zero
  | .minusInf, .finite r => if r < 0 then .inf else .minusInf
  | .minusInf, .inf => .nan
  | .minusInf, .minusInf => .nan

/-- `DivAssign<&Self> for RatioExt` (`ratio_ext.rs` lines 578-620); the
arms mirror `Div for &RatioExt` exactly. -/
def divAssignRef : RatioExt → RatioExt → RatioExt
  | .nan, _ => .nan
  | _, .nan => .nan
  | .inf, .finite r => if r < 0 then .minusInf else .inf
  | .inf, .inf => .nan
  | .inf, .minusInf => .nan
  | .finite l, .finite r =>
      if r = 0 then (if l = 0 then .nan else if l < 0 then .minusInf else .inf)
      else .finite (l / r)
  | .finite _, .inf => zero
  | .finite _, .minusInf => zero
  | .minusInf, .finite r => if r < 0 then .inf else .minusInf
  | .minusInf, .inf => .nan
  | .minusInf, .minusInf => .nan

/-- `MulAssign for RatioExt` **by value** (`ratio_ext.rs` lines 459-466):
the body is `*self += &rhs`, i.e. it delegates to `AddAssign<&Self>`. -/
def mulAssignVal (x y : RatioExt) : RatioExt := addAssignRef x y

/-- `DivAssign for RatioExt` **by value** (`ratio_ext.rs` lines 569-576):
the body is `*self *= &rhs`, i.e. it delegates to `MulAssign<&Self>`. -/
def divAssignVal (x y : RatioExt) : RatioExt := mulAssignRef x y

/-- `Neg for RatioExt` (`ratio_ext.rs` lines 622-636). -/
def neg : RatioExt → RatioExt
  | .inf => .minusInf
  | .finite q => .finite (-q)
  | .minusInf => .inf
  | .nan => .nan

/-- Rust `>` on `RatioExt` (`PartialOrd::gt`): `partial_cmp == Some(Greater)`. -/
def gtZero (x : RatioExt) : Bool := pcmp x zero = some .gt

/-- Rust `>=` against zero (`PartialOrd::ge`):
`matches!(partial_cmp, Some(Greater | Equal))`. -/
def geZero (x : RatioExt) : Bool :=
  pcmp x zero = some .gt ∨ pcmp x zero = some .eq

/-- Whether the value is a finite rational (`RatioExt::is_finite`). -/
def isFinite : RatioExt → Bool
  | .finite _ => true
  | _ => false

end RatioExt

/-- The symbolic Big-M pair, from `big_number.rs` (`struct BigNumber<T>`),
instantiated at `T = BigRationalExt` as the solver uses it. -/
structure BigNumber where
  big_part : RatioExt
  small_part : RatioExt
deriving DecidableEq, Repr

namespace BigNumber

/-- `derive_more::Add` — component-wise addition via `RatioExt` addition. -/
def add (a b : BigNumber) : BigNumber :=
  ⟨a.big_part.add b.big_part, a.small_part.add b.small_part⟩

/-- `derive_more::Sub` — component-wise subtraction. -/
def sub (a b : BigNumber) : BigNumber :=
  ⟨a.big_part.sub b.big_part, a.small_part.sub b.small_part⟩

/-- `Neg for BigNumber<T>` (`big_number.rs` lines 255-267). -/
def neg (a : BigNumber) : BigNumber := ⟨a.big_part.neg, a.small_part.neg⟩

/-- `Zero for BigNumber<T>` (`big_number.rs` lines 269-280). -/
def zero : BigNumber := ⟨RatioExt.zero, RatioExt.zero⟩

/-- `From<T> for BigNumber<T>` (`big_number.rs` lines 136-147): lift a
plain rational into Big-M space with zero big part. -/
def fromRatio (x : RatioExt) : BigNumber := ⟨RatioExt.zero, x⟩

/-- `BigNumber::one_big()` (`big_number.rs` lines 95-102): the symbolic M. -/
def oneBig : BigNumber := ⟨RatioExt.one, RatioExt.zero⟩

/-- `Mul for BigNumber<T>` (`big_number.rs` lines 295-310): the dropped
cross rule `(ai + b)(xi + y) = (ay + bx)i + by`. -/
def mul (a b : BigNumber) : BigNumber :=
  ⟨(a.big_part.mul b.small_part).add (a.small_part.mul b.big_part),
   a.small_part.mul b.small_part⟩

/-- The derived `PartialOrd for BigNumber<T>` (`big_number.rs` line 15):
lexicographic on `(big_part, small_part)` through the field-wise
`partial_cmp` chain generated by `derive(PartialOrd)`. -/
def pcmp (a b : BigNumber) : Option Ordering :=
  match RatioExt.pcmp a.big_part b.big_part with
  | some .eq => RatioExt.pcmp a.small_part b.small_part
  | o => o

/-- `BigNumber::total_cmp`: lexicographic total comparison on
`(big_part, small_part)`. The source (`big_number.rs` lines 104-112)
writes this impl for `BigNumber<f64>` while `table.rs` line 125 invokes it
at `BigNumber<BigRationalExt>`; modelled as the same lexicographic
comparison using `RatioExt::total_cmp` for the components, which is the
ordering the specification states ("comparison is lexicographic"). -/
def totalCmp (a b : BigNumber) : Ordering :=
  match RatioExt.totalCmp a.big_part b.big_part with
  | .eq => RatioExt.totalCmp a.small_part b.small_part
  | o => o

/-- Rust `estimation > Zero::zero()` (`table.rs` line 123):
`partial_cmp == Some(Greater)` against `BigNumber::zero()`. -/
def gtZero (a : BigNumber) : Bool := pcmp a zero = some .gt

/-- Rust `z ≤ 0` on Big-M values: `partial_cmp` against zero is
`Some(Less)` or `Some(Equal)`. -/
def leZero (a : BigNumber) : Bool :=
  pcmp a zero = some .lt ∨ pcmp a zero = some .eq

/-- `TryFrom<BigNumber<BigRational>> for BigRational`
(`big_number.rs` lines 114-123): succeeds with the small part iff the big
part is zero (`is_zero`). `none` models the `Err(String)` branch. -/
def tryIntoRat (a : BigNumber) : Option RatioExt :=
  if a.big_part = RatioExt.zero then some a.small_part else none

end BigNumber

/-- Modelled from the spec: the error sum type `SolutionError {Infinite,
Absent}`. Its definition is referenced throughout `src-tauri/src/simplex`
but the defining module is not among the provided sources; the spec (§3,
§7) fixes it as exactly these two variants. -/
inductive SolutionError where
  | Infinite : SolutionError
  | Absent : SolutionError
deriving DecidableEq, Repr

/-- Modelled from the spec: the `Solution` record
`{ fn_val: ExtendedRational, vars: list of ExtendedRational }` (§3), the
shape destructured by `problem.rs` (`Solution { vars, fn_val }`) and built
by `table.rs`; its defining module is not among the provided sources. -/
structure Solution where
  fn_val : RatioExt
  vars : List RatioExt
deriving DecidableEq, Repr

instance : DecidableEq (Except SolutionError Solution) := fun a b =>
  match a, b with
  | .ok x, .ok y => decidable_of_iff (x = y) (by simp)
  | .ok _, .error _ => isFalse (by simp)
  | .error _, .ok _ => isFalse (by simp)
  | .error x, .error y => decidable_of_iff (x = y) (by simp)

/-- The working tableau state, from `table.rs` (`struct SimplexTable`).
Matrices and vectors are modelled as lists (row-major for the tableau). -/
structure SimplexTable where
  n_significant_variables : ℕ
  basis : List ℕ
  tableau : List (List RatioExt)
  rhs : List RatioExt
  coefficients : List BigNumber
  minimization : Bool
deriving DecidableEq, Repr

namespace SimplexTable

/-- `self.tableau.nrows()`. -/
def nrows (t : SimplexTable) : ℕ := t.tableau.length

/-- `self.tableau.ncols()` — the common row width of the tableau. -/
def ncols (t : SimplexTable) : ℕ := (t.tableau.headD []).length

/-- Entry `self.tableau[(i, j)]` with a zero default out of range
(the source indexes only in range). -/
def entry (t : SimplexTable) (i j : ℕ) : RatioExt :=
  (t.tableau.getD i []).getD j RatioExt.zero

/-- `SimplexTable::basis_coefficients` (`table.rs` lines 62-68): the
objective coefficients at the current basis indices. -/
def basisCoefficients (t : SimplexTable) : List BigNumber :=
  t.basis.map (fun i => t.coefficients.getD i BigNumber.zero)

/-- A 1×n by n×1 product as nalgebra computes it: sum of the pairwise
products, accumulated from zero in row order. -/
def dotBig (u v : List BigNumber) : BigNumber :=
  (List.zipWith BigNumber.mul u v).foldl BigNumber.add BigNumber.zero

/-- `SimplexTable::function_estimation` (`table.rs` lines 70-75):
`basis_coefficients()ᵀ * rhs.map(BigNumber::from)`. -/
def functionEstimation (t : SimplexTable) : BigNumber :=
  dotBig (basisCoefficients t) (t.rhs.map BigNumber.fromRatio)

/-- `SimplexTable::column_estimation_unchecked` (`table.rs` lines 87-99):
`basis_coefficients()ᵀ * A_{·,j}.map(from) - coefficients[j]`. -/
def columnEstimation (t : SimplexTable) (j : ℕ) : BigNumber :=
  BigNumber.sub
    (dotBig (basisCoefficients t)
      (t.tableau.map (fun row => BigNumber.fromRatio (row.getD j RatioExt.zero))))
    (t.coefficients.getD j BigNumber.zero)

/-- The candidate entering columns (`table.rs` lines 119-124): the columns
whose estimation is strictly positive, paired with their estimations, in
increasing column order. -/
def pivotCandidates (t : SimplexTable) : List (ℕ × BigNumber) :=
  (List.range t.ncols).filterMap fun j =>
    if BigNumber.gtZero (columnEstimation t j)
    then some (j, columnEstimation t j) else none

/-- Rust's `Iterator::max_by` fold: keep the accumulator only when it
compares strictly greater, so equal maxima resolve to the **last**
occurrence. -/
def maxFold (cmp : BigNumber → BigNumber → Ordering) :
    (ℕ × BigNumber) → List (ℕ × BigNumber) → (ℕ × BigNumber)
  | acc, [] => acc
  | acc, y :: ys => maxFold cmp (if cmp acc.2 y.2 = .gt then acc else y) ys

/-- `table.rs` lines 119-126: the entering column — the candidate with the
maximal estimation under `total_cmp`, `max_by` semantics. -/
def pivotColumn (t : SimplexTable) : Option ℕ :=
  match pivotCandidates t with
  | [] => none
  | x :: xs => some (maxFold BigNumber.totalCmp x xs).1

/-- The ratio-test candidates (`table.rs` lines 137-144): rows whose entry
in the pivot column is `> 0` (Rust `&pivot_col_el.x > &ZERO`), paired with
`rhs_el / pivot_col_el.x`, in increasing row order. The source zips the
pivot column with the RHS vector. -/
def ratioCandidates (t : SimplexTable) (pc : ℕ) : List (ℕ × RatioExt) :=
  (List.zip (t.tableau.map (fun row => row.getD pc RatioExt.zero)) t.rhs).enum.filterMap
    fun p => if RatioExt.gtZero p.2.1 then some (p.1, p.2.2.div p.2.1) else none

/-- Rust's `Iterator::min_by` fold with the comparator
`ratio1.partial_cmp(ratio2).unwrap()`: keep the accumulator unless it
compares strictly greater (so equal minima resolve to the **first**
occurrence); `none` models the comparator's `unwrap` panic on an
unordered pair. -/
def minRatioFold : (ℕ × RatioExt) → List (ℕ × RatioExt) → Option (ℕ × RatioExt)
  | acc, [] => some acc
  | acc, y :: ys =>
    match RatioExt.pcmp acc.2 y.2 with
    | none => none
    | some .gt => minRatioFold y ys
    | some _ => minRatioFold acc ys

/-- `table.rs` lines 137-147: the leaving row. `none` models the panic —
either `min_by(...)` over no candidates followed by `.unwrap()`, or an
unordered comparison inside `min_by`. -/
def pivotRow (t : SimplexTable) (pc : ℕ) : Option ℕ :=
  match ratioCandidates t pc with
  | [] => none
  | x :: xs => (minRatioFold x xs).map (·.1)

/-- The first basis position holding variable `i` (`table.rs` lines
191-196: `find_map` over `basis.iter().enumerate()`). -/
def firstBasisRow (t : SimplexTable) (i : ℕ) : Option ℕ :=
  (t.basis.enum.find? (fun p => p.2 = i)).map (·.1)

/-- The variable values of the emitted solution (`table.rs` lines
188-202): for each significant variable, the RHS entry of the first basis
row holding it, else `0`. -/
def solutionVars (t : SimplexTable) : List RatioExt :=
  (List.range t.n_significant_variables).map fun i =>
    match firstBasisRow t i with
    | some k => t.rhs.getD k RatioExt.zero
    | none => RatioExt.zero

/-- The terminal emission of `step_min` (`table.rs` lines 175-214): build
the solution; converting the function estimation out of Big-M space
(`try_into`) fails iff the big part is non-zero, in which case the whole
emission is `Err(SolutionError::Infinite)` (the labelled `break 'b`). -/
def terminalResult (t : SimplexTable) : Except SolutionError Solution :=
  match BigNumber.tryIntoRat (functionEstimation t) with
  | some v => .ok ⟨v, solutionVars t⟩
  | none => .error .Infinite

/-- One minimization pivot step, `SimplexTable::step_min` (`table.rs`
lines 115-216). The result is `none` when the source panics (the ratio
test `unwrap`s); otherwise `some (emitted, new_prev_pivot_col, new_state)`
mirroring the Rust return value `(Option<SolutionResult>, Option<usize>)`
plus the mutated state. The sequential elimination loop over rows reads
only the (already divided) pivot row and each row's own multiplier, so it
is translated to an index map. -/
def stepMin (t : SimplexTable) (prev : Option ℕ) :
    Option (Option (Except SolutionError Solution) × Option ℕ × SimplexTable) :=
  let pc? := pivotColumn t
  if pc?.isSome ∧ prev = pc? then some (some (.error .Absent), pc?, t)
  else
    match pc? with
    | some pc =>
      match pivotRow t pc with
      | none => none
      | some pr =>
        let pivotEl := t.entry pr pc
        let rhs1 := t.rhs.set pr ((t.rhs.getD pr RatioExt.zero).div pivotEl)
        let tab1 := t.tableau.set pr ((t.tableau.getD pr []).map (fun el => el.div pivotEl))
        let prow := tab1.getD pr []
        let prhs := rhs1.getD pr RatioExt.zero
        let tab2 := tab1.enum.map fun q =>
          if q.1 = pr then q.2
          else
            let m := q.2.getD pc RatioExt.zero
            List.zipWith (fun a p => a.sub (p.mul m)) q.2 prow
        let rhs2 := rhs1.enum.map fun q =>
          if q.1 = pr then q.2
          else
            let m := (tab1.getD q.1 []).getD pc RatioExt.zero
            q.2.sub (prhs.mul m)
        some (none, some pc,
          { t with
            basis := t.basis.set pr pc
            tableau := tab2
            rhs := rhs2 })
    | none => some (some (terminalResult t), none, t)

/-- `SimplexTable::step_max` (`table.rs` lines 218-223): the body is
`unimplemented!()`, an unconditional panic — modelled as `none`. -/
def stepMax (_t : SimplexTable) (_prev : Option ℕ) :
    Option (Option (Except SolutionError Solution) × Option ℕ × SimplexTable) :=
  none

/-- `SimplexTable::step` (`table.rs` lines 101-113): dispatch on the
minimization flag. -/
def step (t : SimplexTable) (prev : Option ℕ) :
    Option (Option (Except SolutionError Solution) × Option ℕ × SimplexTable) :=
  if t.minimization then stepMin t prev else stepMax t prev

end SimplexTable

/-- The relational sign of a constraint, from `problem.rs` (`enum Sign`). -/
inductive Sign where
  | Less : Sign
  | Equals : Sign
  | Greater : Sign
deriving DecidableEq, Repr

namespace Sign

/-- `Mul<BigRationalExt> for Sign` (`problem.rs` lines 507-520): keep the
sign when the factor is `>= 0`, otherwise swap `Less` and `Greater`.
`MulAssign` (lines 522-526) delegates to this. -/
def mulRat (s : Sign) (r : RatioExt) : Sign :=
  if RatioExt.geZero r then s
  else
    match s with
    | .Less => .Greater
    | .Equals => .Equals
    | .Greater => .Less

end Sign

/-- A user-level constraint row, from `problem.rs` (`struct Constraint`). -/
structure Constraint where
  coefficients : List RatioExt
  sign : Sign
  rhs : RatioExt
deriving DecidableEq, Repr

namespace Constraint

/-- `Mul<BigRationalExt> for Constraint` (`problem.rs` lines 528-538):
`coefficients * rhs` is nalgebra's component-wise row-vector-by-scalar
product (each element multiplied by the scalar), `&self.rhs * &rhs` is
`Mul for &RatioExt`, and the sign uses `Mul<BigRationalExt> for Sign`. -/
def mulC (c : Constraint) (r : RatioExt) : Constraint :=
  { coefficients := c.coefficients.map (fun x => x.mul r)
    sign := c.sign.mulRat r
    rhs := c.rhs.mul r }

/-- `MulAssign<BigRationalExt> for Constraint` (`problem.rs` lines
540-546): `self.coefficients *= rhs` is nalgebra's component-wise scalar
multiply-assign on the row vector, which calls each element's **by-value**
`mul_assign` — for `RatioExt` that is `*self += &rhs` (`ratio_ext.rs`
lines 459-466), so every coefficient gets the scalar **added** to it;
`self.rhs *= &rhs` is `MulAssign<&Self> for RatioExt` (true
multiplication); the sign uses `MulAssign<BigRationalExt> for Sign`. -/
def mulAssignC (c : Constraint) (r : RatioExt) : Constraint :=
  { coefficients := c.coefficients.map (fun x => x.mulAssignVal r)
    sign := c.sign.mulRat r
    rhs := c.rhs.mulAssignRef r }

end Constraint

/-- The user-level objective function over plain extended rationals, from
`problem.rs` (`struct ObjectiveFunction<T>` at `T = BigRationalExt`). -/
structure ObjectiveFunctionR where
  n_significant_variables : ℕ
  coefficients : List RatioExt
  minimization : Bool
deriving DecidableEq, Repr

/-- `ObjectiveFunction::new` (`problem.rs` lines 27-35, `derive_new`):
`n_significant_variables` counts the coefficients that are `!=` zero
under `PartialEq` at construction time. -/
def ObjectiveFunctionR.new (coefficients : List RatioExt) (minimization : Bool) :
    ObjectiveFunctionR :=
  { n_significant_variables :=
      coefficients.countP (fun c => !(RatioExt.beq c RatioExt.zero))
    coefficients := coefficients
    minimization := minimization }

/-- The normalized objective function in Big-M space, from `problem.rs`
(`ObjectiveFunction<BigNumber<BigRationalExt>>`). -/
structure ObjectiveFunctionB where
  n_significant_variables : ℕ
  coefficients : List BigNumber
  minimization : Bool
deriving DecidableEq, Repr

/-- The normalized LP, from `problem.rs` (`struct Problem`); the
constraint matrix is a list of rows. -/
structure Problem where
  objective_function : ObjectiveFunctionB
  constraints : List (List RatioExt)
  rhs : List RatioExt
deriving DecidableEq, Repr

/-- Pad a row with trailing zeros up to width `n` (`problem.rs` lines
385-391: repeatedly `insert_column` a zero at the end until the width is
`max_coefficients_count`). -/
def padTo (n : ℕ) (l : List RatioExt) : List RatioExt :=
  l ++ List.replicate (n - l.length) RatioExt.zero

/-- Normalization phase 1 (`problem.rs` lines 374-380): negate every
constraint whose RHS is negative (`constraint.rhs < Zero::zero()`), via
`*constraint *= -BigRationalExt::one()`. -/
def negateNegRhs (cs : List Constraint) : List Constraint :=
  cs.map fun c =>
    if RatioExt.pcmp c.rhs RatioExt.zero = some .lt
    then c.mulAssignC (RatioExt.finite (-1))
    else c

/-- The indices of the non-`Equals` constraints in order (`problem.rs`
lines 394-398). -/
def nonEqualIdxs (cs : List Constraint) : List ℕ :=
  cs.enum.filterMap fun p => if p.2.sign ≠ Sign.Equals then some p.1 else none

/-- Normalization phase 3 (`problem.rs` lines 399-415): the sequential
loop appends, for each non-`Equals` index `i` in order, one entry to every
constraint — `+1`/`-1` at constraint `i` itself (by its sign) and `0`
elsewhere. Signs are unchanged by the loop, so the net effect on row `j`
is appending the block below. -/
def addSlacks (cs : List Constraint) : List Constraint :=
  cs.enum.map fun p =>
    { p.2 with
      coefficients := p.2.coefficients ++
        (nonEqualIdxs cs).map fun i =>
          if i = p.1
          then (if p.2.sign = Sign.Less then RatioExt.one else RatioExt.finite (-1))
          else RatioExt.zero }

/-- Normalization phase 4 (`problem.rs` lines 425-435): for `i` in
`0..m`, every constraint `j` appends `1` if `i = j` else `0`; row `j`
therefore appends the `j`-th unit block of width `m`. -/
def addArtificials (cs : List Constraint) : List Constraint :=
  cs.enum.map fun p =>
    { p.2 with
      coefficients := p.2.coefficients ++
        (List.range cs.length).map fun i =>
          if i = p.1 then RatioExt.one else RatioExt.zero }

/-- `Problem::normalize` (`problem.rs` lines 361-484). `none` models the
two panics: the `assert_ne!(max_coefficients_count, 0)` (line 372) and the
`constraints[0]` indexing of an empty constraint list in the reformat
block (line 448). Phases in source order: negate negative-RHS rows, pad
all rows and the objective to the common width, append slack
("compensating") columns, lift the objective into Big-M space, append
artificial columns with `±one_big()` objective entries, and reformat. -/
def Problem.normalize (obj : ObjectiveFunctionR) (cs : List Constraint) : Option Problem :=
  let maxLen := ((cs.map fun c => c.coefficients.length) ++
    [obj.coefficients.length]).foldr max 0
  if maxLen = 0 then none
  else if cs = [] then none
  else
    let cs2 := (negateNegRhs cs).map fun c =>
      { c with coefficients := padTo maxLen c.coefficients }
    let objPad := padTo maxLen obj.coefficients
    let cs3 := addSlacks cs2
    let obj3 := objPad ++ (nonEqualIdxs cs2).map fun _ => RatioExt.zero
    let cs4 := addArtificials cs3
    let objB := obj3.map BigNumber.fromRatio ++
      (List.range cs3.length).map fun _ =>
        if obj.minimization then BigNumber.oneBig else BigNumber.oneBig.neg
    some
      { objective_function :=
          { n_significant_variables := obj.n_significant_variables
            coefficients := objB
            minimization := obj.minimization }
        constraints := cs4.map (·.coefficients)
        rhs := cs4.map (·.rhs) }

/-- `Problem::new` (`problem.rs` lines 65-70) — normalization. -/
def Problem.new (obj : ObjectiveFunctionR) (cs : List Constraint) : Option Problem :=
  Problem.normalize obj cs

/-- The new constraint row built in the `Equals` branch of
`Problem::add_constraint_on_var` (`problem.rs` lines 286-300): width
`n_coefs + 1`, value `1` at the artificial position `n_coefs`, `1` at the
branch variable `i`, `0` elsewhere; the artificial write happens last, so
it wins at an overlapping index. -/
def newRowEq (nCoefs i : ℕ) : List RatioExt :=
  (List.range (nCoefs + 1)).map fun j =>
    if j = nCoefs then RatioExt.one
    else if j = i then RatioExt.one
    else RatioExt.zero

/-- The new constraint row built in the `Less`/`Greater` branch of
`Problem::add_constraint_on_var` (`problem.rs` lines 316-338): width
`n_coefs + 2`, value `1` at the artificial position `n_coefs + 1`, the
slack value (`+1` for `Less`, `-1` for `Greater`) at `n_significant`, `1`
at the branch variable `i`, `0` elsewhere; later writes win at
overlapping indices. -/
def newRowIneq (nCoefs nSig i : ℕ) (slackVal : RatioExt) : List RatioExt :=
  (List.range (nCoefs + 2)).map fun j =>
    if j = nCoefs + 1 then RatioExt.one
    else if j = nSig then slackVal
    else if j = i then RatioExt.one
    else RatioExt.zero

/-- `Problem::add_constraint_on_var` (`problem.rs` lines 271-358): append
the branch cut `x_i (sign) rhs`. A `Less` cut with RHS `== 0` (under
`PartialEq`, i.e. the RHS is literally `Finite(0)`) is promoted to
`Equals`. The `Equals` branch appends one zero column (at the end, index
`n_coefs`) to the old rows plus the new row and an artificial objective
entry; the `Less`/`Greater` branch additionally inserts a zero column at
`n_significant` into the old rows and a zero objective entry there. -/
def Problem.addConstraintOnVar (p : Problem) (i : ℕ) (sign0 : Sign) (rhs : RatioExt) :
    Problem :=
  let sign := if sign0 = Sign.Less ∧ RatioExt.beq rhs RatioExt.zero
    then Sign.Equals else sign0
  let nCoefs := p.objective_function.coefficients.length
  let nSig := p.objective_function.n_significant_variables
  let minimization := p.objective_function.minimization
  let cons1 := p.constraints.map fun row => row ++ [RatioExt.zero]
  let artObj := if minimization then BigNumber.oneBig else BigNumber.oneBig.neg
  match sign with
  | Sign.Equals =>
      { p with
        constraints := cons1 ++ [newRowEq nCoefs i]
        rhs := p.rhs ++ [rhs]
        objective_function :=
          { p.objective_function with
            coefficients := p.objective_function.coefficients ++ [artObj] } }
  | s =>
      let slackVal := if s = Sign.Less then RatioExt.one else RatioExt.finite (-1)
      { p with
        constraints := (cons1.map fun row => row.insertIdx nSig RatioExt.zero) ++
          [newRowIneq nCoefs nSig i slackVal]
        rhs := p.rhs ++ [rhs]
        objective_function :=
          { p.objective_function with
            coefficients :=
              (p.objective_function.coefficients.insertIdx nSig BigNumber.zero) ++
              [artObj] } }

/-- The result assembly at the end of `Problem::improve` (`problem.rs`
lines 256-268): the two branch join handles are questioned in order
(`left_join_handle.join().unwrap()?; right_join_handle.join().unwrap()?`),
the first error propagating out of the `thread::scope` and out of
`improve`; only when both branches returned `Ok(())` is the shared
incumbent unwrapped — `none` models the final `.unwrap()` panic on an
empty incumbent. -/
def improveJoin (left right : Except SolutionError Unit) (best : Option Solution) :
    Option (Except SolutionError Solution) :=
  match left with
  | .error e => some (.error e)
  | .ok _ =>
    match right with
    | .error e => some (.error e)
    | .ok _ =>
      match best with
      | some s => some (.ok s)
      | none => none

/-- Spec-side definition (for comparison with the code's `total_cmp`): the
rank of a value in the order `NaN < -Inf < finite < +Inf` stated by the
specification. -/
def specTotalRank : RatioExt → ℕ
  | .nan => 0
  | .minusInf => 1
  | .finite _ => 2
  | .inf => 3

/-- Spec-side definition: the strict order `NaN < -Inf < finite values
(ordered by value) < +Inf` stated by the specification, to be compared
with the code's `total_cmp`. -/
def specTotalLt (x y : RatioExt) : Prop :=
  specTotalRank x < specTotalRank y ∨
    ∃ q r, x = RatioExt.finite q ∧ y = RatioExt.finite r ∧ q < r

/-- Rust `<=` on extended rationals via `partial_cmp`:
`matches!(partial_cmp, Some(Less | Equal))`. -/
def RatioExt.leP (x y : RatioExt) : Prop :=
  RatioExt.pcmp x y = some .lt ∨ RatioExt.pcmp x y = some .eq

/-- The column count of a normalized problem (the common row width). -/
def Problem.ncols (p : Problem) : ℕ := (p.constraints.headD []).length

/-- Entry `(i, j)` of a normalized problem's constraint matrix. -/
def Problem.entryP (p : Problem) (i j : ℕ) : RatioExt :=
  (p.constraints.getD i []).getD j RatioExt.zero

/-- Column `j` is a unit column owned by row `i`: a single `1` in row `i`
and `0` in all other rows. -/
def Problem.isUnitCol (p : Problem) (j i : ℕ) : Prop :=
  ∀ k < p.constraints.length, p.entryP k j = if k = i then RatioExt.one else RatioExt.zero

/-- Concrete state for the no-positive-pivot-entry scenario: the entering
column has estimate `2 > 0` but its only tableau entry is `-1`. -/
def tNoRow : SimplexTable :=
  { n_significant_variables := 1
    basis := [0]
    tableau := [[RatioExt.finite (-1)]]
    rhs := [RatioExt.finite 1]
    coefficients := [BigNumber.fromRatio (RatioExt.finite (-1))]
    minimization := true }

/-- Concrete state exercising a successful ratio test: entering column 0
with estimate `2`, a single positive row. -/
def tRatio : SimplexTable :=
  { n_significant_variables := 1
    basis := [1]
    tableau := [[RatioExt.finite 1, RatioExt.finite 1]]
    rhs := [RatioExt.finite 2]
    coefficients := [BigNumber.fromRatio (RatioExt.finite 1),
      BigNumber.fromRatio (RatioExt.finite 3)]
    minimization := true }

/-- Concrete state with two columns tied for the largest positive
estimate (`1` in both columns 0 and 1). -/
def tTie : SimplexTable :=
  { n_significant_variables := 1
    basis := [2]
    tableau := [[RatioExt.finite 1, RatioExt.finite 1, RatioExt.finite 1]]
    rhs := [RatioExt.finite 1]
    coefficients := [BigNumber.fromRatio RatioExt.zero,
      BigNumber.fromRatio RatioExt.zero, BigNumber.fromRatio (RatioExt.finite 1)]
    minimization := true }

/-- Concrete optimal state: the single column estimate is `0`, so the
step emits a terminal result (`x_0 = 3`, objective `6`). -/
def tOpt : SimplexTable :=
  { n_significant_variables := 1
    basis := [0]
    tableau := [[RatioExt.finite 1]]
    rhs := [RatioExt.finite 3]
    coefficients := [BigNumber.fromRatio (RatioExt.finite 2)]
    minimization := true }

/-- `tOpt` with the maximization flag — the state driving `step` into the
unimplemented `step_max`. -/
def tMax : SimplexTable :=
  { tOpt with minimization := false }

/-- A concrete solution payload for the branch-join scenarios. -/
def solA : Solution := ⟨RatioExt.finite 7, [RatioExt.finite 7]⟩

/-- Concrete normalization input: objective `min x₀ + 2 x₁`. -/
def objW : ObjectiveFunctionR :=
  ObjectiveFunctionR.new [RatioExt.finite 1, RatioExt.finite 2] true

/-- Concrete constraints: `x₀ ≤ -1` (negative RHS, gets negated) and
`2 x₀ + x₁ = 3`. -/
def csW : List Constraint :=
  [⟨[RatioExt.finite 1], Sign.Less, RatioExt.finite (-1)⟩,
   ⟨[RatioExt.finite 2, RatioExt.finite 1], Sign.Equals, RatioExt.finite 3⟩]

/-- A placeholder problem used only as the `getD` default. -/
def dummyProblem : Problem := ⟨⟨0, [], true⟩, [], []⟩

/-- The problem produced by normalizing the concrete witness input. -/
def probW : Problem := (Problem.normalize objW csW).getD dummyProblem

/-- Constraints with a `NaN` right-hand side (for the RHS invariant
counterexample). -/
def csNaN : List Constraint :=
  [⟨[RatioExt.finite 1], Sign.Equals, RatioExt.nan⟩]

/-- Concrete normalized problem for the branch-cut scenarios: one
significant variable, objective row of width 2, one constraint row. -/
def pCut : Problem :=
  { objective_function :=
      { n_significant_variables := 1
        coefficients := [BigNumber.fromRatio (RatioExt.finite 1), BigNumber.oneBig]
        minimization := true }
    constraints := [[RatioExt.finite 1, RatioExt.finite 1]]
    rhs := [RatioExt.finite 5] }

/-- Sign flip: `Less ↔ Greater`, `Equals` fixed (the negative-factor arm
of `Mul<BigRationalExt> for Sign`). -/
def Sign.flip : Sign → Sign
  | .Less => .Greater
  | .Equals => .Equals
  | .Greater => .Less

theorem ratCmp_lt_iff {l r : ℚ} : ratCmp l r = .lt ↔ l < r := by
  unfold ratCmp
  rcases lt_trichotomy l r with h | h | h
  · simp [h]
  · subst h; simp [lt_irrefl]
  · simp [not_lt_of_gt h, (ne_of_lt h).symm]

theorem ratCmp_eq_iff {l r : ℚ} : ratCmp l r = .eq ↔ l = r := by
  unfold ratCmp
  rcases lt_trichotomy l r with h | h | h
  · simp [h, ne_of_lt h]
  · subst h; simp [lt_irrefl]
  · simp [not_lt_of_gt h, (ne_of_lt h).symm]

theorem ratCmp_gt_iff {l r : ℚ} : ratCmp l r = .gt ↔ r < l := by
  unfold ratCmp
  rcases lt_trichotomy l r with h | h | h
  · simp [h, not_lt_of_gt h]
  · subst h; simp [lt_irrefl]
  · simp [not_lt_of_gt h, (ne_of_lt h).symm, h]

theorem ratCmp_refl (l : ℚ) : ratCmp l l = .eq := ratCmp_eq_iff.mpr rfl

theorem ratCmp_swap (l r : ℚ) : ratCmp l r = (ratCmp r l).swap := by
  rcases lt_trichotomy l r with h | h | h
  · rw [ratCmp_lt_iff.mpr h, ratCmp_gt_iff.mpr h]; rfl
  · rw [ratCmp_eq_iff.mpr h, ratCmp_eq_iff.mpr h.symm]; rfl
  · rw [ratCmp_gt_iff.mpr h, ratCmp_lt_iff.mpr h]; rfl

theorem RatioExt.totalCmp_refl (x : RatioExt) : RatioExt.totalCmp x x = .eq := by
  cases x <;> simp [RatioExt.totalCmp, ratCmp_refl]

theorem RatioExt.totalCmp_eq_iff {x y : RatioExt} :
    RatioExt.totalCmp x y = .eq ↔ x = y := by
  cases x <;> cases y <;> simp [RatioExt.totalCmp, ratCmp_eq_iff]

theorem RatioExt.totalCmp_swap (x y : RatioExt) :
    RatioExt.totalCmp x y = (RatioExt.totalCmp y x).swap := by
  cases x <;> cases y <;> first | rfl | exact ratCmp_swap _ _

theorem RatioExt.totalCmp_lt_trans {x y z : RatioExt}
    (h1 : RatioExt.totalCmp x y = .lt) (h2 : RatioExt.totalCmp y z = .lt) :
    RatioExt.totalCmp x z = .lt := by
  cases x <;> cases y <;> cases z <;>
    (simp_all [RatioExt.totalCmp, ratCmp_lt_iff]; try linarith)

theorem RatioExt.totalCmp_lt_iff_spec {x y : RatioExt} :
    RatioExt.totalCmp x y = .lt ↔ specTotalLt x y := by
  cases x <;> cases y <;>
    simp [RatioExt.totalCmp, specTotalLt, specTotalRank, ratCmp_lt_iff]

theorem RatioExt.pcmp_none_iff {x y : RatioExt} :
    RatioExt.pcmp x y = none ↔
      (x.isNan = true ∨ y.isNan = true ∨ (x = .inf ∧ y = .inf) ∨
        (x = .minusInf ∧ y = .minusInf)) := by
  cases x <;> cases y <;> simp [RatioExt.pcmp, RatioExt.isNan]

/-- **C9.** For all extended rationals `x`, `y`, `z`: the partial
comparison is unordered exactly on `NaN` operands and on pairs of equal
infinities; the total comparison realizes the order
`NaN < -Inf < finite (by value) < +Inf`, is antisymmetric
(`total_cmp(x,y)` is the reverse of `total_cmp(y,x)`), and is transitive
on the full domain including `NaN`. -/
theorem ratioext_cmp_characterization (x y z : RatioExt) :
    (RatioExt.pcmp x y = none ↔
      (x.isNan = true ∨ y.isNan = true ∨ (x = .inf ∧ y = .inf) ∨
        (x = .minusInf ∧ y = .minusInf))) ∧
    (RatioExt.totalCmp x y = .lt ↔ specTotalLt x y) ∧
    RatioExt.totalCmp x y = (RatioExt.totalCmp y x).swap ∧
    (RatioExt.totalCmp x y = .lt → RatioExt.totalCmp y z = .lt →
      RatioExt.totalCmp x z = .lt) :=
  ⟨RatioExt.pcmp_none_iff, RatioExt.totalCmp_lt_iff_spec,
    RatioExt.totalCmp_swap x y, fun h1 h2 => RatioExt.totalCmp_lt_trans h1 h2⟩

/-- **C6.** The by-value compound assignments of `RatioExt` disagree with
their binary operators while the by-reference forms agree: `x *= y` (by
value) computes `x + y` (it delegates to `AddAssign`), `x /= y` (by
value) computes `x * y` (it delegates to `MulAssign<&Self>`), and the
by-reference assignments compute the product `x * y` and quotient
`x / y` of the binary operators. -/
theorem ratioext_assign_ops_mismatch (x y : RatioExt) :
    RatioExt.mulAssignVal x y = RatioExt.add x y ∧
    RatioExt.divAssignVal x y = RatioExt.mul x y ∧
    RatioExt.mulAssignRef x y = RatioExt.mul x y ∧
    RatioExt.divAssignRef x y = RatioExt.div x y := by
  refine ⟨?_, ?_, ?_, ?_⟩ <;> cases x <;> cases y <;> rfl

theorem RatioExt.mul_one_right (x : RatioExt) : x.mul RatioExt.one = x := by
  cases x <;> simp [RatioExt.mul, RatioExt.one]

theorem RatioExt.mulAssignRef_one_right (x : RatioExt) :
    x.mulAssignRef RatioExt.one = x := by
  cases x <;> simp [RatioExt.mulAssignRef, RatioExt.one]

theorem RatioExt.mul_negone_right (x : RatioExt) :
    x.mul (RatioExt.finite (-1)) = x.neg := by
  cases x <;> simp [RatioExt.mul, RatioExt.neg]

theorem RatioExt.mulAssignRef_negone_right (x : RatioExt) :
    x.mulAssignRef (RatioExt.finite (-1)) = x.neg := by
  cases x <;> simp [RatioExt.mulAssignRef, RatioExt.neg]


theorem RatioExt.neg_neg_self (x : RatioExt) : x.neg.neg = x := by
  cases x <;> simp [RatioExt.neg]

theorem RatioExt.map_neg_neg (l : List RatioExt) :
    (l.map RatioExt.neg).map RatioExt.neg = l := by
  induction l with
  | nil => rfl
  | cons a t ih => simp [RatioExt.neg_neg_self, ih]

theorem RatioExt.map_neg_comp (l : List RatioExt) :
    List.map ((fun x => RatioExt.neg x) ∘ fun x => RatioExt.neg x) l = l := by
  induction l with
  | nil => rfl
  | cons a t ih =>
    simp only [List.map_cons, Function.comp_apply, RatioExt.neg_neg_self, ih]

theorem Sign.mulRat_one (s : Sign) : s.mulRat RatioExt.one = s := by
  unfold Sign.mulRat
  rw [if_pos (by decide)]

theorem Sign.mulRat_negone (s : Sign) :
    s.mulRat (RatioExt.finite (-1)) = s.flip := by
  unfold Sign.mulRat
  rw [if_neg (by decide)]
  cases s <;> rfl

theorem Sign.flip_flip (s : Sign) : s.flip.flip = s := by cases s <;> rfl

theorem RatioExt.mulAssignVal_eq_add (x y : RatioExt) :
    RatioExt.mulAssignVal x y = RatioExt.add x y := by
  cases x <;> cases y <;> rfl

theorem RatioExt.mulAssignRef_eq_mul (x y : RatioExt) :
    RatioExt.mulAssignRef x y = RatioExt.mul x y := by
  cases x <;> cases y <;> rfl

/-- **C7 counterexample.** On the constraint `x₀ ≤ 2` the in-place
multiply-assign by `-1` does not negate the coefficient: nalgebra's
component-wise scalar multiply-assign calls `RatioExt`'s by-value `*=`,
which is `*self += &rhs`, so the coefficient `1` becomes `1 + (-1) = 0`
instead of `-1`; the result disagrees with the `Mul` operator, and even
multiplying in place by `1` is not the identity. -/
theorem constraint_mulassign_adds_cex :
    (Constraint.mulAssignC ⟨[RatioExt.finite 1], Sign.Less, RatioExt.finite 2⟩
      (RatioExt.finite (-1))).coefficients = [RatioExt.finite 0] ∧
    Constraint.mulAssignC ⟨[RatioExt.finite 1], Sign.Less, RatioExt.finite 2⟩
        (RatioExt.finite (-1)) ≠
      Constraint.mulC ⟨[RatioExt.finite 1], Sign.Less, RatioExt.finite 2⟩
        (RatioExt.finite (-1)) ∧
    Constraint.mulAssignC ⟨[RatioExt.finite 1], Sign.Less, RatioExt.finite 2⟩
        RatioExt.one ≠
      (⟨[RatioExt.finite 1], Sign.Less, RatioExt.finite 2⟩ : Constraint) := by
  refine ⟨?_, ?_, ?_⟩ <;> decide

/-- **C7 (amended).** For the `Mul` operator the claim holds: multiplying
a `Constraint` by `1` is the identity; multiplying by `-1` negates every
coefficient and the RHS and flips the sign (`Less ↔ Greater`, `Equals`
fixed); doing it twice is the identity. The in-place `MulAssign` used
during normalization does **not** satisfy this: `self.coefficients *= rhs`
dispatches through nalgebra's component-wise scalar multiply-assign to
`RatioExt`'s by-value `*=`, which is `*self += &rhs`, so it **adds** the
scalar to every coefficient while still truly multiplying the RHS (by-ref
`*=`) and flipping the sign. -/
theorem constraint_scalar_mul_corrected (c : Constraint) (r : RatioExt) :
    c.mulC RatioExt.one = c ∧
    c.mulC (RatioExt.finite (-1)) =
      ⟨c.coefficients.map RatioExt.neg, c.sign.flip, c.rhs.neg⟩ ∧
    (c.mulC (RatioExt.finite (-1))).mulC (RatioExt.finite (-1)) = c ∧
    (c.mulAssignC r).coefficients = c.coefficients.map (fun x => x.add r) ∧
    (c.mulAssignC r).rhs = c.rhs.mul r ∧
    (c.mulAssignC r).sign = c.sign.mulRat r := by
  obtain ⟨coeffs, sign, rhs⟩ := c
  refine ⟨?_, ?_, ?_, ?_, ?_, ?_⟩ <;>
    simp [Constraint.mulC, Constraint.mulAssignC, RatioExt.mul_one_right,
      RatioExt.mul_negone_right, RatioExt.mulAssignVal_eq_add,
      RatioExt.mulAssignRef_eq_mul, Sign.mulRat_one, Sign.mulRat_negone,
      Sign.flip_flip, RatioExt.neg_neg_self, RatioExt.map_neg_neg,
      RatioExt.map_neg_comp]

/-- **C1 counterexample.** With the left sibling failing
(`SolutionError::Infinite`) and the right sibling having succeeded and
installed an incumbent, the driver's join returns the error, not the
successful sibling's solution; and when both siblings return with no
incumbent the join panics (`none`) instead of reporting
`SolutionError::Absent`. -/
theorem improve_join_error_precedence_cex :
    improveJoin (.error .Infinite) (.ok ()) (some solA) =
      some (.error .Infinite) ∧
    improveJoin (.error .Infinite) (.ok ()) (some solA) ≠ some (.ok solA) ∧
    improveJoin (.ok ()) (.ok ()) none ≠ some (.error .Absent) := by
  refine ⟨rfl, ?_, ?_⟩ <;> simp [improveJoin]

/-- **C1 (amended).** The branch driver's result as a function of the two
sibling outcomes and the shared incumbent: any sibling error is
propagated (the left one first) even when the other sibling succeeded; if
both siblings return successfully the incumbent is returned; and if both
return successfully with an empty incumbent the driver panics (`unwrap`
on `None`) — it never reports `SolutionError::Absent` itself. -/
theorem improve_join_surfacing (e : SolutionError)
    (r : Except SolutionError Unit) (b : Option Solution) (s : Solution) :
    improveJoin (.error e) r b = some (.error e) ∧
    improveJoin (.ok ()) (.error e) b = some (.error e) ∧
    improveJoin (.ok ()) (.ok ()) (some s) = some (.ok s) ∧
    improveJoin (.ok ()) (.ok ()) none = none :=
  ⟨rfl, rfl, rfl, rfl⟩

/-- **C10.** The pivot dispatch: with `minimization == false` the step
goes to `step_max`, whose body is `unimplemented!()` — an unconditional
panic (modelled `none`) — while with `minimization == true` the step is
`step_min` and the maximization path is never reached. -/
theorem step_dispatch_unimplemented_max (t : SimplexTable) (prev : Option ℕ) :
    (t.minimization = false →
      t.step prev = t.stepMax prev ∧ t.stepMax prev = none) ∧
    (t.minimization = true → t.step prev = t.stepMin prev) := by
  constructor <;> intro h <;>
    simp [SimplexTable.step, SimplexTable.stepMax, h]

/-- Witness for C10: the concrete maximization-flagged state panics on
its first step. -/
theorem step_dispatch_unimplemented_max_witness :
    tMax.minimization = false ∧ tMax.step none = none :=
  ⟨rfl, ((step_dispatch_unimplemented_max tMax none).1 rfl).1.trans
    ((step_dispatch_unimplemented_max tMax none).1 rfl).2⟩

theorem BigNumber.totalCmpB_refl (a : BigNumber) : BigNumber.totalCmp a a = .eq := by
  simp [BigNumber.totalCmp, RatioExt.totalCmp_refl]

theorem BigNumber.totalCmpB_eq_iff {a b : BigNumber} :
    BigNumber.totalCmp a b = .eq ↔ a = b := by
  constructor
  · intro h
    unfold BigNumber.totalCmp at h
    rcases hb : RatioExt.totalCmp a.big_part b.big_part with _ | _ | _ <;>
      rw [hb] at h <;> simp at h
    have h1 : a.big_part = b.big_part := RatioExt.totalCmp_eq_iff.mp hb
    have h2 : a.small_part = b.small_part := RatioExt.totalCmp_eq_iff.mp h
    cases a; cases b; simp_all
  · rintro rfl; exact BigNumber.totalCmpB_refl a

theorem BigNumber.totalCmpB_lt_iff {a b : BigNumber} :
    BigNumber.totalCmp a b = .lt ↔
      (RatioExt.totalCmp a.big_part b.big_part = .lt ∨
        (a.big_part = b.big_part ∧
          RatioExt.totalCmp a.small_part b.small_part = .lt)) := by
  unfold BigNumber.totalCmp
  rcases hb : RatioExt.totalCmp a.big_part b.big_part with _ | _ | _
  · simp
  · simp [RatioExt.totalCmp_eq_iff.mp hb]
  · simp
    intro heq
    rw [heq, RatioExt.totalCmp_refl] at hb
    simp at hb

theorem BigNumber.totalCmpB_lt_trans {a b c : BigNumber}
    (h1 : BigNumber.totalCmp a b = .lt) (h2 : BigNumber.totalCmp b c = .lt) :
    BigNumber.totalCmp a c = .lt := by
  rw [BigNumber.totalCmpB_lt_iff] at h1 h2 ⊢
  rcases h1 with h1 | ⟨h1e, h1s⟩
  · rcases h2 with h2 | ⟨h2e, h2s⟩
    · exact Or.inl (RatioExt.totalCmp_lt_trans h1 h2)
    · exact Or.inl (h2e ▸ h1)
  · rcases h2 with h2 | ⟨h2e, h2s⟩
    · exact Or.inl (h1e ▸ h2)
    · exact Or.inr ⟨h1e.trans h2e, RatioExt.totalCmp_lt_trans h1s h2s⟩

theorem BigNumber.notGt_trans {a b c : BigNumber}
    (h1 : BigNumber.totalCmp a b ≠ .gt) (h2 : BigNumber.totalCmp b c ≠ .gt) :
    BigNumber.totalCmp a c ≠ .gt := by
  rcases o1 : BigNumber.totalCmp a b with _ | _ | _
  · rcases o2 : BigNumber.totalCmp b c with _ | _ | _
    · intro hc
      rcases o3 : BigNumber.totalCmp a c with _ | _ | _ <;> rw [o3] at hc <;> simp at hc
      have := BigNumber.totalCmpB_lt_trans o1 o2
      rw [o3] at this; simp at this
    · rw [← BigNumber.totalCmpB_eq_iff.mp o2]
      rw [o1]; simp
    · exact absurd o2 h2
  · rw [BigNumber.totalCmpB_eq_iff.mp o1]; exact h2
  · exact absurd o1 h1

theorem maxFold_mem (acc : ℕ × BigNumber) (l : List (ℕ × BigNumber)) :
    SimplexTable.maxFold BigNumber.totalCmp acc l ∈ acc :: l := by
  induction l generalizing acc with
  | nil => simp [SimplexTable.maxFold]
  | cons y ys ih =>
    rw [SimplexTable.maxFold]
    rcases List.mem_cons.mp (ih (if BigNumber.totalCmp acc.2 y.2 = .gt then acc else y)) with
      h | h
    · rw [h]
      split_ifs with hc <;> simp
    · simp [h]

theorem BigNumber.totalCmpB_swap (a b : BigNumber) :
    BigNumber.totalCmp a b = (BigNumber.totalCmp b a).swap := by
  unfold BigNumber.totalCmp
  rw [RatioExt.totalCmp_swap a.big_part b.big_part,
    RatioExt.totalCmp_swap a.small_part b.small_part]
  rcases RatioExt.totalCmp b.big_part a.big_part with _ | _ | _ <;> simp [Ordering.swap]

theorem maxFold_ge (acc : ℕ × BigNumber) (l : List (ℕ × BigNumber)) :
    ∀ p ∈ acc :: l,
      BigNumber.totalCmp p.2 (SimplexTable.maxFold BigNumber.totalCmp acc l).2 ≠ .gt := by
  induction l generalizing acc with
  | nil =>
    intro p hp
    simp [SimplexTable.maxFold] at hp ⊢
    rw [hp, BigNumber.totalCmpB_refl]
    simp
  | cons y ys ih =>
    intro p hp
    rw [SimplexTable.maxFold]
    by_cases hc : BigNumber.totalCmp acc.2 y.2 = .gt
    · rw [if_pos hc]
      rcases List.mem_cons.mp hp with hpe | hp2
      · rw [hpe]
        exact ih acc acc (List.mem_cons_self _ _)
      · rcases List.mem_cons.mp hp2 with hye | hp3
        · -- the dropped element y: y < acc ≤ max
          have hy : BigNumber.totalCmp y.2 acc.2 ≠ .gt := by
            rw [BigNumber.totalCmpB_swap, hc]
            simp [Ordering.swap]
          rw [hye]
          exact BigNumber.notGt_trans hy (ih acc acc (List.mem_cons_self _ _))
        · exact ih acc p (List.mem_cons_of_mem _ hp3)
    · rw [if_neg hc]
      rcases List.mem_cons.mp hp with hpe | hp2
      · -- the dropped element acc: acc ≤ y ≤ max
        rw [hpe]
        exact BigNumber.notGt_trans hc (ih y y (List.mem_cons_self _ _))
      · exact ih y p hp2

theorem maxFold_tie_le (acc : ℕ × BigNumber) (l : List (ℕ × BigNumber))
    (hp : (acc :: l).Pairwise (fun a b => a.1 < b.1)) :
    ∀ p ∈ acc :: l, p.2 = (SimplexTable.maxFold BigNumber.totalCmp acc l).2 →
      p.1 ≤ (SimplexTable.maxFold BigNumber.totalCmp acc l).1 := by
  induction l generalizing acc with
  | nil =>
    intro p hpmem _
    simp [SimplexTable.maxFold] at hpmem ⊢
    rw [hpmem]
  | cons y ys ih =>
    intro p hpmem he
    rw [SimplexTable.maxFold] at he ⊢
    rcases List.pairwise_cons.mp hp with ⟨hacc, hyys⟩
    rcases List.pairwise_cons.mp hyys with ⟨hy, hys⟩
    by_cases hc : BigNumber.totalCmp acc.2 y.2 = .gt
    · rw [if_pos hc] at he ⊢
      have hp2 : (acc :: ys).Pairwise (fun a b => a.1 < b.1) :=
        List.pairwise_cons.mpr
          ⟨fun b hb => hacc b (List.mem_cons_of_mem _ hb), hys⟩
      rcases List.mem_cons.mp hpmem with hpe | hpm
      · rw [hpe] at he ⊢
        exact ih acc hp2 acc (List.mem_cons_self _ _) he
      · rcases List.mem_cons.mp hpm with hye | hp3
        · -- p = y was dropped because acc > y, so y cannot tie the max
          exfalso
          have hmax := maxFold_ge acc ys acc (List.mem_cons_self _ _)
          rw [← hye] at hc
          rw [he] at hc
          exact hmax hc
        · exact ih acc hp2 p (List.mem_cons_of_mem _ hp3) he
    · rw [if_neg hc] at he ⊢
      rcases List.mem_cons.mp hpmem with hpe | hpm
      · -- p = acc was dropped; its index is below y and hence below the max
        have hmem := maxFold_mem y ys
        rcases List.mem_cons.mp hmem with hm | hm
        · calc p.1 ≤ y.1 := by
                rw [hpe]; exact le_of_lt (hacc y (List.mem_cons_self _ _))
            _ = (SimplexTable.maxFold BigNumber.totalCmp y ys).1 := by rw [hm]
        · calc p.1 ≤ y.1 := by
                rw [hpe]; exact le_of_lt (hacc y (List.mem_cons_self _ _))
            _ ≤ (SimplexTable.maxFold BigNumber.totalCmp y ys).1 :=
              le_of_lt (hy _ hm)
      · exact ih y hyys p hpm he

theorem mem_pivotCandidates {t : SimplexTable} {p : ℕ × BigNumber} :
    p ∈ t.pivotCandidates ↔
      p.1 < t.ncols ∧ BigNumber.gtZero (t.columnEstimation p.1) = true ∧
        p.2 = t.columnEstimation p.1 := by
  obtain ⟨a, b⟩ := p
  simp only [SimplexTable.pivotCandidates, List.mem_filterMap, List.mem_range]
  constructor
  · rintro ⟨j, hj, hf⟩
    by_cases hz : BigNumber.gtZero (t.columnEstimation j) = true
    · rw [if_pos hz, Option.some_inj] at hf
      cases hf
      exact ⟨hj, hz, rfl⟩
    · rw [if_neg hz] at hf
      cases hf
  · rintro ⟨h1, h2, rfl⟩
    exact ⟨a, h1, by rw [if_pos h2]⟩

theorem pivotCandidates_pairwise (t : SimplexTable) :
    t.pivotCandidates.Pairwise (fun a b => a.1 < b.1) := by
  unfold SimplexTable.pivotCandidates
  refine (List.pairwise_lt_range _).filterMap _ ?_
  intro a b hab x hx y hy
  by_cases h1 : BigNumber.gtZero (t.columnEstimation a) = true
  · rw [if_pos h1] at hx
    by_cases h2 : BigNumber.gtZero (t.columnEstimation b) = true
    · rw [if_pos h2] at hy
      rcases hx with ⟨⟩
      rcases hy with ⟨⟩
      exact hab
    · rw [if_neg h2] at hy
      cases hy
  · rw [if_neg h1] at hx
    cases hx

/-- **C4 counterexample.** In the concrete state `tTie` the estimates of
columns 0 and 1 are equal and positive, yet the entering column chosen by
the code is column 1, not the smallest index 0 — Rust's `max_by` resolves
equal maxima to the last candidate. -/
theorem entering_tie_largest_index_cex :
    tTie.columnEstimation 0 = tTie.columnEstimation 1 ∧
    BigNumber.gtZero (tTie.columnEstimation 0) = true ∧
    SimplexTable.pivotColumn tTie = some 1 ∧
    SimplexTable.pivotColumn tTie ≠ some 0 := by
  refine ⟨by decide, by decide, by decide, by decide⟩

/-- **C4 (amended).** In every minimization pivot step where some column
estimate is positive, the entering column is a column with a positive
estimate that no other positive-estimate column strictly exceeds under
`total_cmp`; when several columns tie for the largest positive estimate,
the one with the **largest** index is chosen (Rust's `max_by` keeps the
last of equal maxima), not the smallest. -/
theorem entering_column_selection (t : SimplexTable) (j : ℕ)
    (h : SimplexTable.pivotColumn t = some j) :
    j < t.ncols ∧ BigNumber.gtZero (t.columnEstimation j) = true ∧
      (∀ k < t.ncols, BigNumber.gtZero (t.columnEstimation k) = true →
        BigNumber.totalCmp (t.columnEstimation k) (t.columnEstimation j) ≠ .gt ∧
          (t.columnEstimation k = t.columnEstimation j → k ≤ j)) := by
  unfold SimplexTable.pivotColumn at h
  rcases hpc : t.pivotCandidates with _ | ⟨x, xs⟩ <;> rw [hpc] at h
  · simp at h
  · simp only [Option.some_inj] at h
    subst h
    have hmem : SimplexTable.maxFold BigNumber.totalCmp x xs ∈ t.pivotCandidates := by
      rw [hpc]; exact maxFold_mem x xs
    rcases mem_pivotCandidates.mp hmem with ⟨hlt, hgt, hval⟩
    refine ⟨hlt, hgt, ?_⟩
    intro k hk hgtk
    have hkmem : (k, t.columnEstimation k) ∈ x :: xs := by
      rw [← hpc]; exact mem_pivotCandidates.mpr ⟨hk, hgtk, rfl⟩
    constructor
    · have hge := maxFold_ge x xs (k, t.columnEstimation k) hkmem
      rw [← hval]
      exact hge
    · intro heq
      have hpw : (x :: xs).Pairwise (fun a b => a.1 < b.1) := by
        rw [← hpc]; exact pivotCandidates_pairwise t
      exact maxFold_tie_le x xs hpw (k, t.columnEstimation k) hkmem
        (by show t.columnEstimation k = _; rw [heq, hval])

/-- Witness for C4: at the tie state the theorem applies with entering
column 1. -/
theorem entering_column_selection_witness :
    SimplexTable.pivotColumn tTie = some 1 ∧
      (1 < tTie.ncols ∧ BigNumber.gtZero (tTie.columnEstimation 1) = true ∧
        (∀ k < tTie.ncols, BigNumber.gtZero (tTie.columnEstimation k) = true →
          BigNumber.totalCmp (tTie.columnEstimation k)
              (tTie.columnEstimation 1) ≠ .gt ∧
            (tTie.columnEstimation k = tTie.columnEstimation 1 → k ≤ 1))) :=
  ⟨by decide, entering_column_selection tTie 1 (by decide)⟩

theorem RatioExt.isFinite_iff {x : RatioExt} :
    x.isFinite = true ↔ ∃ q, x = RatioExt.finite q := by
  cases x <;> simp [RatioExt.isFinite]

theorem RatioExt.leP_finite_iff {a b : ℚ} :
    RatioExt.leP (RatioExt.finite a) (RatioExt.finite b) ↔ a ≤ b := by
  simp only [RatioExt.leP, RatioExt.pcmp, Option.some_inj]
  rw [ratCmp_lt_iff, ratCmp_eq_iff]
  exact (le_iff_lt_or_eq).symm

theorem RatioExt.pcmp_finite (a b : ℚ) :
    RatioExt.pcmp (RatioExt.finite a) (RatioExt.finite b) = some (ratCmp a b) := rfl

theorem minRatioFold_spec (acc : ℕ × RatioExt) (l : List (ℕ × RatioExt))
    (hfin : ∀ p ∈ acc :: l, p.2.isFinite = true)
    (hp : (acc :: l).Pairwise (fun a b => a.1 < b.1)) :
    ∃ m, SimplexTable.minRatioFold acc l = some m ∧ m ∈ acc :: l ∧
      (∀ p ∈ acc :: l, RatioExt.leP m.2 p.2) ∧
      (∀ p ∈ acc :: l, p.2 = m.2 → m.1 ≤ p.1) := by
  induction l generalizing acc with
  | nil =>
    obtain ⟨qa, ha⟩ := RatioExt.isFinite_iff.mp (hfin acc (List.mem_cons_self _ _))
    refine ⟨acc, rfl, List.mem_cons_self _ _, ?_, ?_⟩
    · intro p hp2
      rcases List.mem_cons.mp hp2 with hpe | hpm
      · rw [hpe, ha]
        exact RatioExt.leP_finite_iff.mpr le_rfl
      · simp at hpm
    · intro p hp2 _
      rcases List.mem_cons.mp hp2 with hpe | hpm
      · rw [hpe]
      · simp at hpm
  | cons y ys ih =>
    obtain ⟨qa, ha⟩ := RatioExt.isFinite_iff.mp (hfin acc (List.mem_cons_self _ _))
    obtain ⟨qy, hy⟩ := RatioExt.isFinite_iff.mp
      (hfin y (List.mem_cons_of_mem _ (List.mem_cons_self _ _)))
    rcases List.pairwise_cons.mp hp with ⟨hacc, hyys⟩
    have hrun : SimplexTable.minRatioFold acc (y :: ys) =
        match ratCmp qa qy with
        | .gt => SimplexTable.minRatioFold y ys
        | _ => SimplexTable.minRatioFold acc ys := by
      rw [SimplexTable.minRatioFold, ha, hy, RatioExt.pcmp_finite]
      rcases ratCmp qa qy with _ | _ | _ <;> rfl
    rcases hord : ratCmp qa qy with _ | _ | _
    · -- acc < y : keep acc, recurse on acc :: ys
      have hqa : qa < qy := ratCmp_lt_iff.mp hord
      have hfin2 : ∀ p ∈ acc :: ys, p.2.isFinite = true := by
        intro p hp2
        rcases List.mem_cons.mp hp2 with hpe | hpm
        · exact hpe ▸ hfin acc (List.mem_cons_self _ _)
        · exact hfin p (List.mem_cons_of_mem _ (List.mem_cons_of_mem _ hpm))
      have hp2 : (acc :: ys).Pairwise (fun a b => a.1 < b.1) :=
        List.pairwise_cons.mpr
          ⟨fun b hb => hacc b (List.mem_cons_of_mem _ hb),
            (List.pairwise_cons.mp hyys).2⟩
      obtain ⟨m, hm1, hm2, hm3, hm4⟩ := ih acc hfin2 hp2
      obtain ⟨qm, hqm⟩ := RatioExt.isFinite_iff.mp (hfin2 m hm2)
      have hmle : qm ≤ qa := by
        have := hm3 acc (List.mem_cons_self _ _)
        rw [hqm, ha] at this
        exact RatioExt.leP_finite_iff.mp this
      refine ⟨m, by rw [hrun, hord]; exact hm1, ?_, ?_, ?_⟩
      · rcases List.mem_cons.mp hm2 with hme | hmm
        · rw [hme]; exact List.mem_cons_self _ _
        · exact List.mem_cons_of_mem _ (List.mem_cons_of_mem _ hmm)
      · intro p hp3
        rcases List.mem_cons.mp hp3 with hpe | hpm
        · exact hpe ▸ hm3 acc (List.mem_cons_self _ _)
        · rcases List.mem_cons.mp hpm with hpe2 | hpm2
          · rw [hpe2, hqm, hy]
            exact RatioExt.leP_finite_iff.mpr (lt_of_le_of_lt hmle hqa).le
          · exact hm3 p (List.mem_cons_of_mem _ hpm2)
      · intro p hp3 he
        rcases List.mem_cons.mp hp3 with hpe | hpm
        · rw [hpe]
          exact hm4 acc (List.mem_cons_self _ _) (by rw [← hpe, he])
        · rcases List.mem_cons.mp hpm with hpe2 | hpm2
          · -- p = y cannot tie: qm ≤ qa < qy
            exfalso
            rw [hpe2, hy, hqm] at he
            have : qy = qm := by injection he
            rw [this] at hqa
            exact absurd hqa (not_lt_of_ge hmle)
          · exact hm4 p (List.mem_cons_of_mem _ hpm2) he
    · -- acc = y in value: keep acc, recurse on acc :: ys
      have hqeq : qa = qy := ratCmp_eq_iff.mp hord
      have hfin2 : ∀ p ∈ acc :: ys, p.2.isFinite = true := by
        intro p hp2
        rcases List.mem_cons.mp hp2 with hpe | hpm
        · exact hpe ▸ hfin acc (List.mem_cons_self _ _)
        · exact hfin p (List.mem_cons_of_mem _ (List.mem_cons_of_mem _ hpm))
      have hp2 : (acc :: ys).Pairwise (fun a b => a.1 < b.1) :=
        List.pairwise_cons.mpr
          ⟨fun b hb => hacc b (List.mem_cons_of_mem _ hb),
            (List.pairwise_cons.mp hyys).2⟩
      obtain ⟨m, hm1, hm2, hm3, hm4⟩ := ih acc hfin2 hp2
      obtain ⟨qm, hqm⟩ := RatioExt.isFinite_iff.mp (hfin2 m hm2)
      have hmle : qm ≤ qa := by
        have := hm3 acc (List.mem_cons_self _ _)
        rw [hqm, ha] at this
        exact RatioExt.leP_finite_iff.mp this
      refine ⟨m, by rw [hrun, hord]; exact hm1, ?_, ?_, ?_⟩
      · rcases List.mem_cons.mp hm2 with hme | hmm
        · rw [hme]; exact List.mem_cons_self _ _
        · exact List.mem_cons_of_mem _ (List.mem_cons_of_mem _ hmm)
      · intro p hp3
        rcases List.mem_cons.mp hp3 with hpe | hpm
        · exact hpe ▸ hm3 acc (List.mem_cons_self _ _)
        · rcases List.mem_cons.mp hpm with hpe2 | hpm2
          · rw [hpe2, hy, hqm, ← hqeq]
            exact RatioExt.leP_finite_iff.mpr hmle
          · exact hm3 p (List.mem_cons_of_mem _ hpm2)
      · intro p hp3 he
        rcases List.mem_cons.mp hp3 with hpe | hpm
        · rw [hpe]
          exact hm4 acc (List.mem_cons_self _ _) (by rw [← hpe, he])
        · rcases List.mem_cons.mp hpm with hpe2 | hpm2
          · -- p = y ties the minimum, so the minimum is acc itself,
            -- whose index is below y's
            have hacc_tie : acc.2 = m.2 := by
              rw [ha, hqm]
              rw [hpe2, hy, hqm] at he
              have : qy = qm := by injection he
              rw [hqeq, this]
            have hm_le_acc := hm4 acc (List.mem_cons_self _ _) hacc_tie
            calc m.1 ≤ acc.1 := hm_le_acc
              _ ≤ p.1 := by
                rw [hpe2]
                exact le_of_lt (hacc y (List.mem_cons_self _ _))
          · exact hm4 p (List.mem_cons_of_mem _ hpm2) he
    · -- acc > y : switch to y, recurse on y :: ys
      have hqgt : qy < qa := ratCmp_gt_iff.mp hord
      have hfin2 : ∀ p ∈ y :: ys, p.2.isFinite = true := fun p hp2 =>
        hfin p (List.mem_cons_of_mem _ hp2)
      obtain ⟨m, hm1, hm2, hm3, hm4⟩ := ih y hfin2 hyys
      obtain ⟨qm, hqm⟩ := RatioExt.isFinite_iff.mp (hfin2 m hm2)
      have hmle : qm ≤ qy := by
        have := hm3 y (List.mem_cons_self _ _)
        rw [hqm, hy] at this
        exact RatioExt.leP_finite_iff.mp this
      refine ⟨m, by rw [hrun, hord]; exact hm1, List.mem_cons_of_mem _ hm2, ?_, ?_⟩
      · intro p hp3
        rcases List.mem_cons.mp hp3 with hpe | hpm
        · rw [hpe, ha, hqm]
          exact RatioExt.leP_finite_iff.mpr (le_of_lt (lt_of_le_of_lt hmle hqgt))
        · exact hm3 p hpm
      · intro p hp3 he
        rcases List.mem_cons.mp hp3 with hpe | hpm
        · -- p = acc cannot tie: qm ≤ qy < qa
          exfalso
          rw [hpe, ha, hqm] at he
          have : qa = qm := by injection he
          rw [this] at hqgt
          exact absurd hqgt (not_lt_of_ge hmle)
        · exact hm4 p hpm he

theorem enumFrom_fst_ge {α : Type} (k : ℕ) (l : List α) :
    ∀ b ∈ List.enumFrom k l, k ≤ b.1 := by
  induction l generalizing k with
  | nil => simp
  | cons x xs ih =>
    intro b hb
    rw [List.enumFrom_cons] at hb
    rcases List.mem_cons.mp hb with he | hm
    · rw [he]
    · exact le_trans (Nat.le_succ k) (ih (k + 1) b hm)

theorem enumFrom_pairwise {α : Type} (n : ℕ) (l : List α) :
    (List.enumFrom n l).Pairwise (fun a b => a.1 < b.1) := by
  induction l generalizing n with
  | nil => simp
  | cons x xs ih =>
    rw [List.enumFrom_cons]
    refine List.pairwise_cons.mpr ⟨?_, ih (n + 1)⟩
    intro b hb
    exact lt_of_lt_of_le (Nat.lt_succ_self n) (enumFrom_fst_ge (n + 1) xs b hb)

theorem enum_pairwise {α : Type} (l : List α) :
    l.enum.Pairwise (fun a b => a.1 < b.1) := enumFrom_pairwise 0 l

theorem mem_ratioCandidates {t : SimplexTable} {pc : ℕ} {p : ℕ × RatioExt}
    (hlen : t.rhs.length = t.tableau.length) :
    p ∈ t.ratioCandidates pc ↔
      p.1 < t.nrows ∧ RatioExt.gtZero (t.entry p.1 pc) = true ∧
        p.2 = (t.rhs.getD p.1 RatioExt.zero).div (t.entry p.1 pc) := by
  unfold SimplexTable.ratioCandidates
  rw [List.mem_filterMap]
  constructor
  · rintro ⟨q, hq, hf⟩
    rw [List.mem_enum_iff_getElem?, List.getElem?_zip_eq_some] at hq
    obtain ⟨h1, h2⟩ := hq
    rw [List.getElem?_map] at h1
    rcases ht : t.tableau[q.1]? with _ | row
    · rw [ht] at h1; simp at h1
    · rw [ht] at h1
      simp only [Option.map_some', Option.some_inj] at h1
      have hq1lt : q.1 < t.tableau.length := (List.getElem?_eq_some.mp ht).1
      have hentry : t.entry q.1 pc = q.2.1 := by
        unfold SimplexTable.entry
        rw [List.getD_eq_getElem?_getD t.tableau q.1 [], ht]
        simp only [Option.getD_some]
        exact h1
      have hrhs : t.rhs.getD q.1 RatioExt.zero = q.2.2 := by
        rw [List.getD_eq_getElem?_getD, h2]
        rfl
      by_cases hz : RatioExt.gtZero q.2.1 = true
      · rw [if_pos hz, Option.some_inj] at hf
        rw [← hf]
        refine ⟨hq1lt, by rw [hentry]; exact hz, ?_⟩
        show q.2.2.div q.2.1 = _
        rw [hentry, hrhs]
      · rw [if_neg hz] at hf
        cases hf
  · rintro ⟨hn, hgt, hval⟩
    have hn2 : p.1 < t.rhs.length := by rw [hlen]; exact hn
    obtain ⟨row, ht⟩ : ∃ row, t.tableau[p.1]? = some row :=
      ⟨_, List.getElem?_eq_getElem hn⟩
    obtain ⟨bv, hb⟩ : ∃ bv, t.rhs[p.1]? = some bv :=
      ⟨_, List.getElem?_eq_getElem hn2⟩
    have hrow : t.tableau.getD p.1 [] = row := by
      rw [List.getD_eq_getElem?_getD t.tableau p.1 [], ht]; rfl
    have hrhsv : t.rhs.getD p.1 RatioExt.zero = bv := by
      rw [List.getD_eq_getElem?_getD, hb]; rfl
    refine ⟨(p.1, (row.getD pc RatioExt.zero, bv)), ?_, ?_⟩
    · rw [List.mem_enum_iff_getElem?, List.getElem?_zip_eq_some]
      constructor
      · rw [List.getElem?_map, ht]; rfl
      · exact hb
    · have hentry : t.entry p.1 pc = row.getD pc RatioExt.zero := by
        unfold SimplexTable.entry
        rw [hrow]
      rw [hentry] at hgt
      simp only [if_pos hgt, Option.some_inj]
      have hpv : p.2 = bv.div (row.getD pc RatioExt.zero) := by
        rw [hval, hentry, hrhsv]
      rw [← hpv]

theorem ratioCandidates_pairwise (t : SimplexTable) (pc : ℕ) :
    (t.ratioCandidates pc).Pairwise (fun a b => a.1 < b.1) := by
  unfold SimplexTable.ratioCandidates
  refine (enum_pairwise _).filterMap _ ?_
  intro a b hab x hx y hy
  by_cases h1 : RatioExt.gtZero a.2.1 = true
  · rw [if_pos h1] at hx
    by_cases h2 : RatioExt.gtZero b.2.1 = true
    · rw [if_pos h2] at hy
      rcases hx with ⟨⟩
      rcases hy with ⟨⟩
      exact hab
    · rw [if_neg h2] at hy
      cases hy
  · rw [if_neg h1] at hx
    cases hx

/-- **C3 counterexample.** In the concrete state `tNoRow` the entering
column 0 has the positive estimate `2`, but no row has a positive entry
in that column: the step **panics** (`unwrap` of the empty ratio test,
modelled `none`) instead of returning `SolutionError::Infinite`. -/
theorem ratio_test_no_positive_row_panics_cex :
    SimplexTable.pivotColumn tNoRow = some 0 ∧
    BigNumber.gtZero (tNoRow.columnEstimation 0) = true ∧
    (∀ i < tNoRow.nrows, RatioExt.gtZero (tNoRow.entry i 0) = false) ∧
    tNoRow.stepMin none = none ∧
    tNoRow.stepMin none ≠
      some (some (.error SolutionError.Infinite), some 0, tNoRow) := by
  refine ⟨by decide, by decide, by decide, by decide, by decide⟩

/-- **C3 (amended).** In every minimization pivot step where an entering
column `j*` with positive estimate was chosen (and the cycling guard does
not fire), the leaving row is selected among rows `i` with
`A[i][j*] > 0` as the one minimizing `b_i / A[i][j*]`, ties broken by
smallest row index; but when no row has `A[i][j*] > 0` the step
**panics** (`unwrap` on the empty ratio test, modelled `none`) rather
than returning `SolutionError::Infinite`. -/
theorem ratio_test_selection (t : SimplexTable) (pc : ℕ) (prev : Option ℕ)
    (hpc : SimplexTable.pivotColumn t = some pc)
    (hprev : prev ≠ some pc)
    (hlen : t.rhs.length = t.tableau.length) :
    (t.ratioCandidates pc = [] → t.stepMin prev = none) ∧
    (t.ratioCandidates pc ≠ [] →
      (∀ p ∈ t.ratioCandidates pc, p.2.isFinite = true) →
      ∃ i, SimplexTable.pivotRow t pc = some i ∧
        i < t.nrows ∧ RatioExt.gtZero (t.entry i pc) = true ∧
        (∀ k < t.nrows, RatioExt.gtZero (t.entry k pc) = true →
          RatioExt.leP ((t.rhs.getD i RatioExt.zero).div (t.entry i pc))
              ((t.rhs.getD k RatioExt.zero).div (t.entry k pc)) ∧
            ((t.rhs.getD k RatioExt.zero).div (t.entry k pc) =
              (t.rhs.getD i RatioExt.zero).div (t.entry i pc) → i ≤ k))) := by
  constructor
  · intro hc
    have hrow : SimplexTable.pivotRow t pc = none := by
      unfold SimplexTable.pivotRow
      rw [hc]
    unfold SimplexTable.stepMin
    rw [hpc]
    rw [if_neg (by simp [hprev])]
    simp only [hrow]
  · intro hc hfin
    rcases hcands : t.ratioCandidates pc with _ | ⟨x, xs⟩
    · exact absurd hcands hc
    · have hfin2 : ∀ p ∈ x :: xs, p.2.isFinite = true := by
        rw [← hcands]; exact hfin
      have hpw : (x :: xs).Pairwise (fun a b => a.1 < b.1) := by
        rw [← hcands]; exact ratioCandidates_pairwise t pc
      obtain ⟨m, hm1, hm2, hm3, hm4⟩ := minRatioFold_spec x xs hfin2 hpw
      have hmmem : m ∈ t.ratioCandidates pc := by rw [hcands]; exact hm2
      rcases (mem_ratioCandidates hlen).mp hmmem with ⟨hn, hgt, hval⟩
      refine ⟨m.1, ?_, hn, hgt, ?_⟩
      · unfold SimplexTable.pivotRow
        rw [hcands]
        show (SimplexTable.minRatioFold x xs).map (fun z => z.1) = some m.1
        rw [hm1]
        rfl
      · intro k hk hgtk
        have hkmem : (k, (t.rhs.getD k RatioExt.zero).div (t.entry k pc)) ∈ x :: xs := by
          rw [← hcands]
          exact (mem_ratioCandidates hlen).mpr ⟨hk, hgtk, rfl⟩
        constructor
        · have := hm3 _ hkmem
          rw [← hval]
          exact this
        · intro heq
          exact hm4 _ hkmem (by show _ = m.2; rw [hval, heq])

/-- Witness for C3: the concrete state `tRatio` has entering column 0,
one positive row, and the selected leaving row is row 0. -/
theorem ratio_test_selection_witness :
    SimplexTable.pivotColumn tRatio = some 0 ∧
      (none : Option ℕ) ≠ some 0 ∧
      tRatio.rhs.length = tRatio.tableau.length ∧
      ((tRatio.ratioCandidates 0 = [] → tRatio.stepMin none = none) ∧
        (tRatio.ratioCandidates 0 ≠ [] →
          (∀ p ∈ tRatio.ratioCandidates 0, p.2.isFinite = true) →
          ∃ i, SimplexTable.pivotRow tRatio 0 = some i ∧
            i < tRatio.nrows ∧ RatioExt.gtZero (tRatio.entry i 0) = true ∧
            (∀ k < tRatio.nrows, RatioExt.gtZero (tRatio.entry k 0) = true →
              RatioExt.leP
                  ((tRatio.rhs.getD i RatioExt.zero).div (tRatio.entry i 0))
                  ((tRatio.rhs.getD k RatioExt.zero).div (tRatio.entry k 0)) ∧
                ((tRatio.rhs.getD k RatioExt.zero).div (tRatio.entry k 0) =
                  (tRatio.rhs.getD i RatioExt.zero).div (tRatio.entry i 0) →
                  i ≤ k)))) :=
  ⟨by decide, by decide, rfl,
    ratio_test_selection tRatio 0 none (by decide) (by decide) rfl⟩

theorem BigNumber.leZero_not_gtZero {e : BigNumber}
    (h : BigNumber.leZero e = true) : BigNumber.gtZero e = false := by
  unfold BigNumber.leZero at h
  unfold BigNumber.gtZero
  simp only [decide_eq_true_eq] at h
  rcases h with h | h <;> simp [h]

theorem pivotCandidates_nil (t : SimplexTable)
    (hle : ∀ j < t.ncols, BigNumber.leZero (t.columnEstimation j) = true) :
    t.pivotCandidates = [] := by
  unfold SimplexTable.pivotCandidates
  rw [List.filterMap_eq_nil_iff]
  intro j hj
  rw [List.mem_range] at hj
  rw [if_neg]
  simp [BigNumber.leZero_not_gtZero (hle j hj)]

theorem find_enumFrom_none {l : List ℕ} {i : ℕ} (n : ℕ)
    (h : ∀ k, l.get? k ≠ some i) :
    (List.enumFrom n l).find? (fun p => p.2 = i) = none := by
  induction l generalizing n with
  | nil => rfl
  | cons a as ih =>
    rw [List.enumFrom_cons]
    have ha : a ≠ i := by
      have h0 := h 0
      simpa using h0
    rw [List.find?_cons_of_neg _ (by simpa using ha)]
    exact ih (n + 1) (fun k => by simpa using h (k + 1))

theorem find_enumFrom_some {l : List ℕ} {i k : ℕ} (n : ℕ)
    (hk : l.get? k = some i) (hmin : ∀ m < k, l.get? m ≠ some i) :
    (List.enumFrom n l).find? (fun p => p.2 = i) = some (n + k, i) := by
  induction l generalizing n k with
  | nil => simp at hk
  | cons a as ih =>
    rw [List.enumFrom_cons]
    cases k with
    | zero =>
      have ha : a = i := by simpa using hk
      rw [List.find?_cons_of_pos _ (by simpa using ha)]
      rw [ha, Nat.add_zero]
    | succ k2 =>
      have ha : a ≠ i := by
        have := hmin 0 (Nat.succ_pos _)
        simpa using this
      rw [List.find?_cons_of_neg _ (by simpa using ha)]
      have hk2 : as.get? k2 = some i := by simpa using hk
      have hmin2 : ∀ m < k2, as.get? m ≠ some i := fun m hm => by
        have := hmin (m + 1) (by omega)
        simpa using this
      rw [ih (n + 1) hk2 hmin2]
      have harith : n + 1 + k2 = n + (k2 + 1) := by omega
      rw [harith]

theorem firstBasisRow_none {t : SimplexTable} {i : ℕ}
    (h : ∀ k, t.basis.get? k ≠ some i) :
    SimplexTable.firstBasisRow t i = none := by
  unfold SimplexTable.firstBasisRow
  have : t.basis.enum.find? (fun p => p.2 = i) = none := by
    show (List.enumFrom 0 t.basis).find? (fun p => p.2 = i) = none
    exact find_enumFrom_none 0 h
  rw [this]
  rfl

theorem firstBasisRow_some {t : SimplexTable} {i k : ℕ}
    (hk : t.basis.get? k = some i) (hmin : ∀ m < k, t.basis.get? m ≠ some i) :
    SimplexTable.firstBasisRow t i = some k := by
  unfold SimplexTable.firstBasisRow
  have : t.basis.enum.find? (fun p => p.2 = i) = some (0 + k, i) := by
    show (List.enumFrom 0 t.basis).find? (fun p => p.2 = i) = some (0 + k, i)
    exact find_enumFrom_some 0 hk hmin
  rw [this]
  simp

theorem solutionVars_getD {t : SimplexTable} {i : ℕ}
    (hi : i < t.n_significant_variables) :
    (SimplexTable.solutionVars t).getD i RatioExt.zero =
      match SimplexTable.firstBasisRow t i with
      | some k => t.rhs.getD k RatioExt.zero
      | none => RatioExt.zero := by
  unfold SimplexTable.solutionVars
  rw [List.getD_eq_getElem?_getD, List.getElem?_map,
    List.getElem?_range hi]
  rfl

/-- **C2.** In every minimization tableau state in which every column
estimate `z_j = c_B^T A_j - c_j` is `≤ 0`, the step emits a terminal
result without touching the state: the solution assigns to each original
(significant) variable the RHS entry of its (first) basis row when the
variable is in the basis and `0` otherwise; the objective value is the
Big-M dot product `c_B^T · b` (`function_estimation`) converted to a
plain rational, and the conversion — hence the whole emission — fails
with `SolutionError::Infinite` exactly when that Big-M value's big
component is non-zero. -/
theorem step_min_terminal_emission (t : SimplexTable) (prev : Option ℕ)
    (hmin : t.minimization = true)
    (hle : ∀ j < t.ncols, BigNumber.leZero (t.columnEstimation j) = true) :
    t.step prev =
      some (some (if (SimplexTable.functionEstimation t).big_part = RatioExt.zero
        then Except.ok
          ⟨(SimplexTable.functionEstimation t).small_part,
            SimplexTable.solutionVars t⟩
        else Except.error SolutionError.Infinite), none, t) ∧
    (SimplexTable.terminalResult t = Except.error SolutionError.Infinite ↔
      (SimplexTable.functionEstimation t).big_part ≠ RatioExt.zero) ∧
    (∀ i < t.n_significant_variables,
      ((∀ k, t.basis.get? k ≠ some i) →
        (SimplexTable.solutionVars t).getD i RatioExt.zero = RatioExt.zero) ∧
      (∀ k, t.basis.get? k = some i → (∀ m < k, t.basis.get? m ≠ some i) →
        (SimplexTable.solutionVars t).getD i RatioExt.zero =
          t.rhs.getD k RatioExt.zero)) := by
  have hcand : t.pivotCandidates = [] := pivotCandidates_nil t hle
  have hpivot : SimplexTable.pivotColumn t = none := by
    unfold SimplexTable.pivotColumn
    rw [hcand]
  have hterm : SimplexTable.terminalResult t =
      (if (SimplexTable.functionEstimation t).big_part = RatioExt.zero
        then Except.ok
          (⟨(SimplexTable.functionEstimation t).small_part,
            SimplexTable.solutionVars t⟩ : Solution)
        else Except.error SolutionError.Infinite) := by
    unfold SimplexTable.terminalResult BigNumber.tryIntoRat
    split_ifs with h <;> rfl
  refine ⟨?_, ?_, ?_⟩
  · rw [SimplexTable.step, if_pos hmin]
    unfold SimplexTable.stepMin
    rw [hpivot]
    rw [if_neg (by simp)]
    rw [hterm]
  · rw [hterm]
    split_ifs with h <;> simp [h]
  · intro i hi
    constructor
    · intro hnone
      rw [solutionVars_getD hi, firstBasisRow_none hnone]
    · intro k hk hminidx
      rw [solutionVars_getD hi, firstBasisRow_some hk hminidx]

/-- Witness for C2: the concrete optimal state `tOpt` emits the solution
`x₀ = 3` with objective value `6`. -/
theorem step_min_terminal_emission_witness :
    tOpt.minimization = true ∧
      (∀ j < tOpt.ncols, BigNumber.leZero (tOpt.columnEstimation j) = true) ∧
      tOpt.step none =
        some (some (if (SimplexTable.functionEstimation tOpt).big_part = RatioExt.zero
          then Except.ok
            ⟨(SimplexTable.functionEstimation tOpt).small_part,
              SimplexTable.solutionVars tOpt⟩
          else Except.error SolutionError.Infinite), none, tOpt) :=
  ⟨rfl, by decide, (step_min_terminal_emission tOpt none rfl (by decide)).1⟩

/-- **C8.** Branch cuts: a `Less` cut with RHS `0` is promoted to
`Equals`, so the sub-problem gains only one artificial column and one new
row (no slack column) — one column fewer than a `Less` cut with positive
RHS produces. For `w > 0` the `Less` cut inserts a zero slack column at
position `n_significant` into the old rows and the objective, appends a
new row with `+1` at the branch variable `i`, `+1` on the slack, `+1` on
the new artificial (last) column, appends `w` to the RHS, and extends the
objective row with the Big-M penalty on the artificial. -/
theorem add_constraint_cut_shape (p : Problem) (i : ℕ) (q : ℚ)
    (hi : i < p.objective_function.n_significant_variables)
    (hsig : p.objective_function.n_significant_variables ≤
      p.objective_function.coefficients.length)
    (hq : 0 < q) :
    p.addConstraintOnVar i Sign.Less RatioExt.zero =
      p.addConstraintOnVar i Sign.Equals RatioExt.zero ∧
    (p.addConstraintOnVar i Sign.Less RatioExt.zero).constraints =
      (p.constraints.map fun row => row ++ [RatioExt.zero]) ++
        [newRowEq p.objective_function.coefficients.length i] ∧
    (p.addConstraintOnVar i Sign.Less RatioExt.zero).rhs =
      p.rhs ++ [RatioExt.zero] ∧
    (p.addConstraintOnVar i Sign.Less RatioExt.zero).objective_function.coefficients =
      p.objective_function.coefficients ++
        [if p.objective_function.minimization then BigNumber.oneBig
          else BigNumber.oneBig.neg] ∧
    (p.addConstraintOnVar i Sign.Less
        RatioExt.zero).objective_function.coefficients.length + 1 =
      (p.addConstraintOnVar i Sign.Less
        (RatioExt.finite q)).objective_function.coefficients.length ∧
    (p.addConstraintOnVar i Sign.Less (RatioExt.finite q)).constraints =
      (p.constraints.map fun row =>
        (row ++ [RatioExt.zero]).insertIdx
          p.objective_function.n_significant_variables RatioExt.zero) ++
        [newRowIneq p.objective_function.coefficients.length
          p.objective_function.n_significant_variables i RatioExt.one] ∧
    (p.addConstraintOnVar i Sign.Less (RatioExt.finite q)).rhs =
      p.rhs ++ [RatioExt.finite q] ∧
    (p.addConstraintOnVar i Sign.Less
        (RatioExt.finite q)).objective_function.coefficients =
      (p.objective_function.coefficients.insertIdx
        p.objective_function.n_significant_variables BigNumber.zero) ++
        [if p.objective_function.minimization then BigNumber.oneBig
          else BigNumber.oneBig.neg] ∧
    (∀ j < p.objective_function.coefficients.length + 2,
      (newRowIneq p.objective_function.coefficients.length
          p.objective_function.n_significant_variables i
          RatioExt.one).getD j RatioExt.zero =
        if j = i then RatioExt.one
        else if j = p.objective_function.n_significant_variables then RatioExt.one
        else if j = p.objective_function.coefficients.length + 1 then RatioExt.one
        else RatioExt.zero) := by
  have hzero : (RatioExt.beq RatioExt.zero RatioExt.zero) = true := by decide
  have hfin : (RatioExt.beq (RatioExt.finite q) RatioExt.zero) = false := by
    simp only [RatioExt.beq, RatioExt.zero, decide_eq_false_iff_not]
    exact ne_of_gt hq
  have hless0 : p.addConstraintOnVar i Sign.Less RatioExt.zero =
      p.addConstraintOnVar i Sign.Equals RatioExt.zero := by
    unfold Problem.addConstraintOnVar
    rw [if_pos ⟨rfl, hzero⟩, if_neg (by simp)]
  have hlessq : p.addConstraintOnVar i Sign.Less (RatioExt.finite q) =
      { p with
        constraints := ((p.constraints.map fun row => row ++ [RatioExt.zero]).map
            fun row => row.insertIdx
              p.objective_function.n_significant_variables RatioExt.zero) ++
          [newRowIneq p.objective_function.coefficients.length
            p.objective_function.n_significant_variables i RatioExt.one]
        rhs := p.rhs ++ [RatioExt.finite q]
        objective_function :=
          { p.objective_function with
            coefficients :=
              (p.objective_function.coefficients.insertIdx
                p.objective_function.n_significant_variables BigNumber.zero) ++
              [if p.objective_function.minimization then BigNumber.oneBig
                else BigNumber.oneBig.neg] } } := by
    unfold Problem.addConstraintOnVar
    rw [if_neg (by simp [hfin])]
    rfl
  have heq0 : p.addConstraintOnVar i Sign.Equals RatioExt.zero =
      { p with
        constraints := (p.constraints.map fun row => row ++ [RatioExt.zero]) ++
          [newRowEq p.objective_function.coefficients.length i]
        rhs := p.rhs ++ [RatioExt.zero]
        objective_function :=
          { p.objective_function with
            coefficients := p.objective_function.coefficients ++
              [if p.objective_function.minimization then BigNumber.oneBig
                else BigNumber.oneBig.neg] } } := by
    unfold Problem.addConstraintOnVar
    rw [if_neg (by simp)]
  refine ⟨hless0, ?_, ?_, ?_, ?_, ?_, ?_, ?_, ?_⟩
  · rw [hless0, heq0]
  · rw [hless0, heq0]
  · rw [hless0, heq0]
  · rw [hless0, heq0, hlessq]
    simp only [List.length_append, List.length_singleton]
    rw [List.length_insertIdx _ _ hsig]
  · rw [hlessq]
    simp only [List.map_map, Function.comp_def]
  · rw [hlessq]
  · rw [hlessq]
  · intro j hj
    unfold newRowIneq
    rw [List.getD_eq_getElem?_getD, List.getElem?_map, List.getElem?_range hj]
    simp only [Option.map_some', Option.getD_some]
    have hins : i < p.objective_function.n_significant_variables := hi
    by_cases h1 : j = i
    · rw [if_neg, if_neg, if_pos h1, if_pos h1]
      · omega
      · omega
    · by_cases h2 : j = p.objective_function.n_significant_variables
      · rw [if_neg, if_pos h2, if_neg h1, if_pos h2]
        omega
      · by_cases h3 : j = p.objective_function.coefficients.length + 1
        · rw [if_pos h3, if_neg h1, if_neg h2, if_pos h3]
        · rw [if_neg h3, if_neg h2, if_neg h1, if_neg h1, if_neg h2, if_neg h3]

/-- Witness for C8: the concrete problem `pCut`, branch variable 0,
cut value 1. -/
theorem add_constraint_cut_shape_witness :
    0 < pCut.objective_function.n_significant_variables ∧
    pCut.objective_function.n_significant_variables ≤
      pCut.objective_function.coefficients.length ∧
    (0 : ℚ) < 1 ∧
    pCut.addConstraintOnVar 0 Sign.Less RatioExt.zero =
      pCut.addConstraintOnVar 0 Sign.Equals RatioExt.zero :=
  ⟨by decide, by decide, by decide,
    (add_constraint_cut_shape pCut 0 1 (by decide) (by decide) (by decide)).1⟩

theorem le_foldr_max {l : List ℕ} {b : ℕ} : ∀ x ∈ l, x ≤ l.foldr max b := by
  induction l with
  | nil => simp
  | cons a as ih =>
    intro x hx
    rcases List.mem_cons.mp hx with he | hm
    · rw [he, List.foldr_cons]
      exact Nat.le_max_left _ _
    · rw [List.foldr_cons]
      exact le_trans (ih x hm) (Nat.le_max_right _ _)

theorem padTo_length {n : ℕ} {l : List RatioExt} (h : l.length ≤ n) :
    (padTo n l).length = n := by
  simp only [padTo, List.length_append, List.length_replicate]
  omega

theorem map_snd_enumFrom {α β : Type} (g : α → β) (n : ℕ) (l : List α) :
    (List.enumFrom n l).map (fun p => g p.2) = l.map g := by
  induction l generalizing n with
  | nil => rfl
  | cons a as ih =>
    rw [List.enumFrom_cons, List.map_cons, List.map_cons, ih (n + 1)]

theorem enum_map_getElem? {α β : Type} (f : ℕ × α → β) (l : List α) (j : ℕ) :
    (l.enum.map f)[j]? = (l[j]?).map fun a => f (j, a) := by
  rw [List.getElem?_map, List.getElem?_enum]
  cases l[j]? <;> rfl

theorem getD_append_right_ratio (l1 l2 : List RatioExt) (n : ℕ) (d : RatioExt) :
    (l1 ++ l2).getD (l1.length + n) d = l2.getD n d := by
  rw [List.getD_eq_getElem?_getD, List.getElem?_append_right (by omega),
    List.getD_eq_getElem?_getD]
  congr 1
  congr 1
  omega

theorem getD_map_range {f : ℕ → RatioExt} {m j : ℕ} (hj : j < m) (d : RatioExt) :
    (((List.range m).map f).getD j d) = f j := by
  rw [List.getD_eq_getElem?_getD, List.getElem?_map, List.getElem?_range hj]
  rfl

theorem addSlacks_map_rhs (l : List Constraint) :
    (addSlacks l).map (·.rhs) = l.map (·.rhs) := by
  unfold addSlacks
  rw [List.map_map]
  exact map_snd_enumFrom (·.rhs) 0 l

theorem addArtificials_map_rhs (l : List Constraint) :
    (addArtificials l).map (·.rhs) = l.map (·.rhs) := by
  unfold addArtificials
  rw [List.map_map]
  exact map_snd_enumFrom (·.rhs) 0 l

theorem addSlacks_length (l : List Constraint) : (addSlacks l).length = l.length := by
  simp [addSlacks]

theorem addArtificials_length (l : List Constraint) :
    (addArtificials l).length = l.length := by
  simp [addArtificials]

theorem geZero_of_negate (c : Constraint) (hnn : c.rhs ≠ RatioExt.nan) :
    RatioExt.geZero ((if RatioExt.pcmp c.rhs RatioExt.zero = some .lt
      then c.mulAssignC (RatioExt.finite (-1)) else c).rhs) = true := by
  rcases hr : c.rhs with _ | q | _ | _
  · rw [if_neg (by decide)]
    rw [hr]
    decide
  · rcases lt_trichotomy q 0 with hq | hq | hq
    · rw [if_pos (by
        show some (ratCmp q 0) = some Ordering.lt
        rw [ratCmp_lt_iff.mpr hq])]
      show RatioExt.geZero (c.rhs.mulAssignRef (RatioExt.finite (-1))) = true
      rw [RatioExt.mulAssignRef_negone_right, hr]
      have hgt : ratCmp (-q) 0 = .gt := ratCmp_gt_iff.mpr (by linarith)
      simp [RatioExt.neg, RatioExt.geZero, RatioExt.pcmp, RatioExt.zero, hgt]
    · rw [if_neg (by
        show ¬ some (ratCmp q 0) = some Ordering.lt
        rw [hq]
        decide)]
      rw [hr, hq]
      decide
    · rw [if_neg (by
        show ¬ some (ratCmp q 0) = some Ordering.lt
        rw [ratCmp_gt_iff.mpr hq]
        decide)]
      rw [hr]
      have hgt : ratCmp q 0 = .gt := ratCmp_gt_iff.mpr hq
      simp [RatioExt.geZero, RatioExt.pcmp, RatioExt.zero, hgt]
  · rw [if_pos (by decide)]
    show RatioExt.geZero (c.rhs.mulAssignRef (RatioExt.finite (-1))) = true
    rw [RatioExt.mulAssignRef_negone_right, hr]
    decide
  · exact absurd hr hnn

theorem one_ne_zero_ratioext : RatioExt.one ≠ RatioExt.zero := by decide

/-- **C5 (amended).** For every objective function with at least one
coefficient and every constraint list **none of whose right-hand sides is
`NaN`**, the `Problem` produced by normalization satisfies: the
constraint matrix is `m × n` with `n ≥ n_significant + m`; every row has
a unit column owned uniquely by that row; every RHS entry is `≥ 0`; and
no constraint row is all-zero. (Without the `NaN` restriction the RHS
non-negativity invariant fails — see the counterexample.) -/
theorem normalize_invariants (coeffs : List RatioExt) (minim : Bool)
    (cs : List Constraint) (P : Problem)
    (hobj : coeffs ≠ [])
    (hnn : ∀ c ∈ cs, c.rhs ≠ RatioExt.nan)
    (hP : Problem.normalize (ObjectiveFunctionR.new coeffs minim) cs = some P) :
    P.constraints.length = cs.length ∧
    (∀ row ∈ P.constraints, row.length = P.ncols) ∧
    P.objective_function.n_significant_variables + cs.length ≤ P.ncols ∧
    (∀ j < cs.length, ∃ col < P.ncols, P.isUnitCol col j) ∧
    (∀ j1 j2 col, j1 < cs.length → j2 < cs.length →
      P.isUnitCol col j1 → P.isUnitCol col j2 → j1 = j2) ∧
    (∀ r ∈ P.rhs, RatioExt.geZero r = true) ∧
    (∀ row ∈ P.constraints, ¬ (∀ x ∈ row, x = RatioExt.zero)) := by
  simp only [Problem.normalize, ObjectiveFunctionR.new] at hP
  have h1 : ¬ (((cs.map fun c => c.coefficients.length) ++
      [coeffs.length]).foldr max 0 = 0) := by
    intro hzero
    have hle : coeffs.length ≤ ((cs.map fun c => c.coefficients.length) ++
        [coeffs.length]).foldr max 0 :=
      le_foldr_max _ (List.mem_append_right _ (List.mem_singleton.mpr rfl))
    rw [hzero] at hle
    exact hobj (List.length_eq_zero.mp (Nat.le_zero.mp hle))
  rw [if_neg h1] at hP
  have h2 : cs ≠ [] := by
    intro hcs
    rw [hcs] at hP
    simp at hP
  rw [if_neg h2] at hP
  rw [Option.some_inj] at hP
  -- abbreviations for the phases
  set M := ((cs.map fun c => c.coefficients.length) ++ [coeffs.length]).foldr max 0
    with hM
  set cs2 := (negateNegRhs cs).map
    (fun c => { c with coefficients := padTo M c.coefficients }) with hcs2
  set cs3 := addSlacks cs2 with hcs3
  set cs4 := addArtificials cs3 with hcs4
  set s := (nonEqualIdxs cs2).length with hs
  have hm0 : cs.length ≠ 0 := fun h => h2 (List.length_eq_zero.mp h)
  have hlen2 : cs2.length = cs.length := by
    rw [hcs2, List.length_map, negateNegRhs, List.length_map]
  have hlen3 : cs3.length = cs.length := by rw [hcs3, addSlacks_length, hlen2]
  have hlen4 : cs4.length = cs.length := by rw [hcs4, addArtificials_length, hlen3]
  -- element shape of cs2
  have hcs2elem : ∀ (j : ℕ), cs2[j]? = (cs[j]?).map (fun (c : Constraint) =>
      { (if RatioExt.pcmp c.rhs RatioExt.zero = some Ordering.lt
          then c.mulAssignC (RatioExt.finite (-1)) else c) with
        coefficients := (padTo M
          (if RatioExt.pcmp c.rhs RatioExt.zero = some Ordering.lt
            then c.mulAssignC (RatioExt.finite (-1)) else c).coefficients) }) := by
    intro j
    rw [hcs2, List.getElem?_map, negateNegRhs, List.getElem?_map, Option.map_map]
    rfl
  have hcoeflen2 : ∀ j (hj : j < cs.length) c2, cs2[j]? = some c2 →
      c2.coefficients.length = M := by
    intro j hj c2 hc2
    rw [hcs2elem j] at hc2
    rcases hcj : cs[j]? with _ | c
    · rw [hcj] at hc2; cases hc2
    · rw [hcj] at hc2
      simp only [Option.map_some', Option.some_inj] at hc2
      rw [← hc2]
      have horig : c.coefficients.length ≤ M := by
        apply le_foldr_max
        exact List.mem_append_left _ (List.mem_map_of_mem _
          ((List.mem_iff_getElem?).mpr ⟨j, hcj⟩))
      have hneg : (if RatioExt.pcmp c.rhs RatioExt.zero = some Ordering.lt
          then c.mulAssignC (RatioExt.finite (-1)) else c).coefficients.length =
          c.coefficients.length := by
        split_ifs <;> simp [Constraint.mulAssignC]
      show (padTo M _).length = M
      rw [padTo_length (by rw [hneg]; exact horig)]
  -- element shape of the final rows
  have hrowelem : ∀ j, j < cs.length → ∃ pre,
      pre.length = M + s ∧
      (cs4.map (·.coefficients))[j]? = some (pre ++
        (List.range cs.length).map (fun i2 =>
          if i2 = j then RatioExt.one else RatioExt.zero)) := by
    intro j hj
    rcases hc2 : cs2[j]? with _ | c2
    · exfalso
      have hjb : j < cs2.length := by rw [hlen2]; exact hj
      rw [List.getElem?_eq_getElem hjb] at hc2
      cases hc2
    · have hc3 : cs3[j]? = some { c2 with coefficients := (c2.coefficients ++
          (nonEqualIdxs cs2).map (fun i2 =>
            if i2 = j
            then (if c2.sign = Sign.Less then RatioExt.one else RatioExt.finite (-1))
            else RatioExt.zero)) } := by
        rw [hcs3]
        show (cs2.enum.map _)[j]? = _
        rw [enum_map_getElem? _ cs2 j, hc2]
        rfl
      have hc4 : cs4[j]? = some { c2 with coefficients := ((c2.coefficients ++
          (nonEqualIdxs cs2).map (fun i2 =>
            if i2 = j
            then (if c2.sign = Sign.Less then RatioExt.one else RatioExt.finite (-1))
            else RatioExt.zero)) ++
          (List.range cs3.length).map (fun i2 =>
            if i2 = j then RatioExt.one else RatioExt.zero)) } := by
        rw [hcs4]
        show (cs3.enum.map _)[j]? = _
        rw [enum_map_getElem? _ cs3 j, hc3]
        rfl
      refine ⟨c2.coefficients ++
        (nonEqualIdxs cs2).map (fun i2 =>
          if i2 = j
          then (if c2.sign = Sign.Less then RatioExt.one else RatioExt.finite (-1))
          else RatioExt.zero), ?_, ?_⟩
      · simp only [List.length_append, List.length_map]
        rw [hcoeflen2 j hj c2 hc2, hs]
      · rw [List.getElem?_map, hc4, hlen3]
        rfl
  -- the produced fields
  have hPc : P.constraints = cs4.map (·.coefficients) := by rw [← hP]
  have hPr : P.rhs = cs4.map (·.rhs) := by rw [← hP]
  have hPn : P.objective_function.n_significant_variables =
      coeffs.countP (fun c => !RatioExt.beq c RatioExt.zero) := by rw [← hP]
  have hclen : P.constraints.length = cs.length := by
    rw [hPc, List.length_map, hlen4]
  have hPncols : P.ncols = M + s + cs.length := by
    show (P.constraints.headD []).length = _
    rw [hPc, List.headD_eq_head?_getD, List.head?_eq_getElem?]
    obtain ⟨pre, hpre, hrow⟩ := hrowelem 0 (Nat.pos_of_ne_zero hm0)
    rw [hrow]
    simp only [Option.getD_some, List.length_append, List.length_map,
      List.length_range]
    omega
  have hrowval : ∀ j k, j < cs.length → k < cs.length →
      (P.constraints.getD k []).getD (M + s + j) RatioExt.zero =
        if k = j then RatioExt.one else RatioExt.zero := by
    intro j k hj hk
    obtain ⟨pre, hpre, hrow⟩ := hrowelem k hk
    rw [hPc, List.getD_eq_getElem?_getD (cs4.map (·.coefficients)) k [],
      hrow, Option.getD_some]
    have hidx : M + s + j = pre.length + j := by omega
    rw [hidx, getD_append_right_ratio, getD_map_range hj]
    by_cases hkj : j = k
    · rw [if_pos hkj, if_pos hkj.symm]
    · rw [if_neg hkj, if_neg (Ne.symm hkj)]
  refine ⟨hclen, ?_, ?_, ?_, ?_, ?_, ?_⟩
  · -- all rows have width ncols
    intro row hrm
    rw [hPc] at hrm
    obtain ⟨j, hje⟩ := List.mem_iff_getElem?.mp hrm
    have hj : j < cs.length := by
      have hb := (List.getElem?_eq_some.mp hje).1
      rw [List.length_map, hlen4] at hb
      exact hb
    obtain ⟨pre, hpre, hrow⟩ := hrowelem j hj
    rw [hje] at hrow
    have hroweq : row = pre ++
        (List.range cs.length).map (fun i2 =>
          if i2 = j then RatioExt.one else RatioExt.zero) :=
      Option.some_inj.mp hrow
    rw [hroweq, hPncols]
    simp only [List.length_append, List.length_map, List.length_range]
    omega
  · -- n ≥ n_significant + m
    rw [hPn, hPncols]
    have hc1 : coeffs.countP (fun c => !RatioExt.beq c RatioExt.zero) ≤
        coeffs.length := List.countP_le_length _
    have hc2le : coeffs.length ≤ M :=
      le_foldr_max _ (List.mem_append_right _ (List.mem_singleton.mpr rfl))
    omega
  · -- every row owns a unit column
    intro j hj
    refine ⟨M + s + j, by rw [hPncols]; omega, ?_⟩
    intro k hk
    have hk2 : k < cs.length := by rw [← hclen]; exact hk
    exact hrowval j k hj hk2
  · -- unit columns are owned uniquely
    intro j1 j2 col hj1 hj2 hu1 hu2
    by_contra hne
    have hv1 := hu1 j1 (by rw [hclen]; exact hj1)
    have hv2 := hu2 j1 (by rw [hclen]; exact hj1)
    rw [if_pos rfl] at hv1
    rw [if_neg hne] at hv2
    rw [hv1] at hv2
    exact one_ne_zero_ratioext hv2
  · -- RHS non-negative
    intro r hr
    rw [hPr] at hr
    have hchain : cs4.map (·.rhs) = cs.map (fun c =>
        (if RatioExt.pcmp c.rhs RatioExt.zero = some Ordering.lt
          then c.mulAssignC (RatioExt.finite (-1)) else c).rhs) := by
      rw [hcs4, addArtificials_map_rhs, hcs3, addSlacks_map_rhs, hcs2,
        List.map_map, negateNegRhs, List.map_map]
      rfl
    rw [hchain] at hr
    obtain ⟨c, hcmem, hce⟩ := List.mem_map.mp hr
    rw [← hce]
    exact geZero_of_negate c (hnn c hcmem)
  · -- no all-zero row
    intro row hrm hall
    rw [hPc] at hrm
    obtain ⟨j, hje⟩ := List.mem_iff_getElem?.mp hrm
    have hj : j < cs.length := by
      have hb := (List.getElem?_eq_some.mp hje).1
      rw [List.length_map, hlen4] at hb
      exact hb
    obtain ⟨pre, hpre, hrow⟩ := hrowelem j hj
    rw [hje] at hrow
    have hroweq : row = pre ++
        (List.range cs.length).map (fun i2 =>
          if i2 = j then RatioExt.one else RatioExt.zero) :=
      Option.some_inj.mp hrow
    have hval : row.getD (M + s + j) RatioExt.zero = RatioExt.one := by
      rw [hroweq]
      have hidx : M + s + j = pre.length + j := by omega
      rw [hidx, getD_append_right_ratio, getD_map_range hj, if_pos rfl]
    have hrowlen2 : M + s + j < row.length := by
      rw [hroweq]
      simp only [List.length_append, List.length_map, List.length_range]
      omega
    have hmem : row.getD (M + s + j) RatioExt.zero ∈ row := by
      rw [List.getD_eq_getElem _ _ hrowlen2]
      exact List.getElem_mem _
    have hz := hall _ hmem
    rw [hval] at hz
    exact one_ne_zero_ratioext hz

/-- **C5 counterexample.** With a `NaN` right-hand side the claim fails:
normalization produces a `Problem` (no panic), but its RHS entry is `NaN`
and `NaN ≥ 0` does not hold — the "every RHS entry is ≥ 0" invariant is
violated as stated. -/
theorem normalize_nan_rhs_cex :
    (Problem.normalize (ObjectiveFunctionR.new [RatioExt.finite 1] true)
        csNaN).map (fun P => P.rhs.all RatioExt.geZero) = some false := by
  decide

/-- Witness for C5: the concrete two-variable instance `objW`/`csW`. -/
theorem normalize_invariants_witness :
    ([RatioExt.finite 1, RatioExt.finite 2] : List RatioExt) ≠ [] ∧
    (∀ c ∈ csW, c.rhs ≠ RatioExt.nan) ∧
    Problem.normalize (ObjectiveFunctionR.new
      [RatioExt.finite 1, RatioExt.finite 2] true) csW = some probW ∧
    (probW.constraints.length = csW.length ∧
      (∀ row ∈ probW.constraints, row.length = probW.ncols) ∧
      probW.objective_function.n_significant_variables + csW.length ≤ probW.ncols ∧
      (∀ j < csW.length, ∃ col < probW.ncols, probW.isUnitCol col j) ∧
      (∀ j1 j2 col, j1 < csW.length → j2 < csW.length →
        probW.isUnitCol col j1 → probW.isUnitCol col j2 → j1 = j2) ∧
      (∀ r ∈ probW.rhs, RatioExt.geZero r = true) ∧
      (∀ row ∈ probW.constraints, ¬ (∀ x ∈ row, x = RatioExt.zero))) :=
  ⟨by decide, by decide, by decide,
    normalize_invariants [RatioExt.finite 1, RatioExt.finite 2] true csW probW
      (by decide) (by decide) (by decide)⟩
